import Mathlib

/-!
Verification development for the icon-library deduplicator.

The repository contains two deduplication pipelines over a directory tree of
SVG icons organised as one subdirectory per style ("outlined", "filled",
"sharp", "round"):

* an exact pipeline (processIconGroups) that clusters a given icon's style
  variants by MD5 content hash and, per cluster of size at least two, keeps
  "outlined" when present and otherwise the lexicographically smallest style;
* a visual pipeline (processVisualDeduplication) that renders each variant to
  a 64x64 bitmap, queries an external strict visual-equality oracle on every
  unordered pair, collects every style touched by at least one equal pair into
  a single involved set, and emits one keep/remove decision per icon;
* two report-consuming deleters and a design-tool marking consumer.

The definitions below are a shallow embedding of that JavaScript source:
file contents are abstracted into a hash function on paths, the external
visual oracle into a boolean function on style pairs, and the filesystem into
listings and path sets.  Strings stay strings; JavaScript object insertion
semantics are modelled with association lists.
-/

/-- Style labels are the style-directory names such as "outlined". -/
abbrev Style := String

/-- IconName is the logical icon identifier: the file base name without ".svg". -/
abbrev IconName := String

/-- FilePath values are modelled as plain strings. -/
abbrev FsPath := String

/-- Fixed style list used by both pipeline scripts:
`const STYLES = ["outlined", "filled", "sharp", "round"]`. -/
def STYLES : List Style := ["outlined", "filled", "sharp", "round"]

/-- Insert a string into an already sorted list, keeping it sorted. -/
def sortedInsert (x : String) : List String → List String
  | [] => [x]
  | y :: ys => if x ≤ y then x :: y :: ys else y :: sortedInsert x ys

/-- Models JavaScript `Array.prototype.sort()` with the default comparator on
the style-name strings (lexicographic order; on these ASCII names the UTF-16
order used by JavaScript agrees with Lean's string order). -/
def jsSort (l : List String) : List String := l.foldr sortedInsert []

/-- Models the keep choice shared by both pipelines:
`cluster.includes("outlined") ? "outlined" : cluster.sort()[0]`. -/
def chooseKeep (c : List Style) : Style :=
  if "outlined" ∈ c then "outlined" else (jsSort c).headD ""

/-- Models `remove = cluster.filter((s) => s !== keep)`.  When "outlined" is
absent the keep ternary has already sorted the cluster array in place, so the
filter runs over the sorted list in that branch. -/
def chooseRemove (c : List Style) : List Style :=
  (if "outlined" ∈ c then c else jsSort c).filter (fun s => s ≠ chooseKeep c)

theorem sortedInsert_perm (x : String) (l : List String) :
    (sortedInsert x l).Perm (x :: l) := by
  induction l with
  | nil => exact List.Perm.refl _
  | cons y ys ih =>
    unfold sortedInsert
    by_cases h : x ≤ y
    · simp [h]
    · simp only [if_neg h]
      exact (ih.cons y).trans (List.Perm.swap x y ys)

theorem jsSort_perm (l : List String) : (jsSort l).Perm l := by
  induction l with
  | nil => exact List.Perm.refl _
  | cons x xs ih =>
    have h1 : jsSort (x :: xs) = sortedInsert x (jsSort xs) := rfl
    rw [h1]
    exact (sortedInsert_perm x (jsSort xs)).trans (ih.cons x)

theorem sortedInsert_sorted (x : String) (l : List String)
    (h : l.Sorted (· ≤ ·)) : (sortedInsert x l).Sorted (· ≤ ·) := by
  induction l with
  | nil => simp [sortedInsert]
  | cons y ys ih =>
    unfold sortedInsert
    by_cases hxy : x ≤ y
    · simp only [if_pos hxy]
      refine List.sorted_cons.mpr ⟨?_, h⟩
      intro b hb
      rcases List.mem_cons.mp hb with hb | hb
      · exact hb ▸ hxy
      · exact le_trans hxy ((List.sorted_cons.mp h).1 b hb)
    · simp only [if_neg hxy]
      have hy : ∀ b ∈ ys, y ≤ b := (List.sorted_cons.mp h).1
      have hys : ys.Sorted (· ≤ ·) := (List.sorted_cons.mp h).2
      refine List.sorted_cons.mpr ⟨?_, ih hys⟩
      intro b hb
      have hb2 : b ∈ x :: ys := (sortedInsert_perm x ys).mem_iff.mp hb
      rcases List.mem_cons.mp hb2 with hb2 | hb2
      · exact hb2 ▸ le_of_not_le hxy
      · exact hy b hb2

theorem jsSort_sorted (l : List String) : (jsSort l).Sorted (· ≤ ·) := by
  induction l with
  | nil => simp [jsSort]
  | cons x xs ih => exact sortedInsert_sorted x (jsSort xs) ih

theorem jsSort_head_min (l : List String) (hne : l ≠ []) :
    (jsSort l).headD "" ∈ l ∧ ∀ s ∈ l, (jsSort l).headD "" ≤ s := by
  have hperm := jsSort_perm l
  have hsne : jsSort l ≠ [] := by
    intro h
    exact hne ((h ▸ hperm : ([] : List String).Perm l).symm.eq_nil)
  obtain ⟨a, t, hat⟩ := List.exists_cons_of_ne_nil hsne
  have hhead : (jsSort l).headD "" = a := by rw [hat]; rfl
  constructor
  · rw [hhead]
    exact hperm.mem_iff.mp (by rw [hat]; exact List.mem_cons_self a t)
  · intro s hs
    have hs2 : s ∈ jsSort l := hperm.mem_iff.mpr hs
    rw [hat] at hs2
    have hsorted := jsSort_sorted l
    rw [hat] at hsorted
    rcases List.mem_cons.mp hs2 with hs2 | hs2
    · rw [hhead, hs2]
    · rw [hhead]
      exact (List.sorted_cons.mp hsorted).1 s hs2

theorem chooseKeep_mem (c : List Style) (hne : c ≠ []) : chooseKeep c ∈ c := by
  unfold chooseKeep
  by_cases h : "outlined" ∈ c
  · simp only [if_pos h]
    exact h
  · simp only [if_neg h]
    exact (jsSort_head_min c hne).1

theorem chooseKeep_outlined (c : List Style) (h : "outlined" ∈ c) :
    chooseKeep c = "outlined" := by
  unfold chooseKeep
  simp [h]

theorem chooseKeep_min (c : List Style) (hne : c ≠ []) (h : "outlined" ∉ c) :
    chooseKeep c ∈ c ∧ ∀ s ∈ c, chooseKeep c ≤ s := by
  unfold chooseKeep
  simp only [if_neg h]
  exact jsSort_head_min c hne

theorem chooseRemove_mem (c : List Style) (s : Style) :
    s ∈ chooseRemove c ↔ s ∈ c ∧ s ≠ chooseKeep c := by
  unfold chooseRemove
  by_cases h : "outlined" ∈ c
  · simp [h]
  · simp only [if_neg h, List.mem_filter]
    constructor
    · rintro ⟨h1, h2⟩
      exact ⟨(jsSort_perm c).mem_iff.mp h1, by simpa using h2⟩
    · rintro ⟨h1, h2⟩
      exact ⟨(jsSort_perm c).mem_iff.mpr h1, by simpa using h2⟩

theorem chooseRemove_nodup (c : List Style) (h : c.Nodup) :
    (chooseRemove c).Nodup := by
  unfold chooseRemove
  by_cases ho : "outlined" ∈ c
  · simp only [if_pos ho]
    exact h.filter _
  · simp only [if_neg ho]
    exact ((jsSort_perm c).nodup_iff.mpr h).filter _

theorem chooseKeep_not_mem_chooseRemove (c : List Style) :
    chooseKeep c ∉ chooseRemove c := by
  intro h
  exact ((chooseRemove_mem c (chooseKeep c)).mp h).2 rfl

theorem chooseRemove_ne_nil (c : List Style) (hnd : c.Nodup)
    (hlen : 2 ≤ c.length) : chooseRemove c ≠ [] := by
  have hcne : c ≠ [] := by
    intro h
    rw [h] at hlen
    simp at hlen
  obtain ⟨a, t, hat⟩ := List.exists_cons_of_ne_nil hcne
  have htne : t ≠ [] := by
    intro h; rw [hat, h] at hlen; simp at hlen
  obtain ⟨b, u, hbu⟩ := List.exists_cons_of_ne_nil htne
  have hab : a ≠ b := by
    rw [hat, hbu] at hnd
    intro h
    exact (List.nodup_cons.mp hnd).1 (h ▸ List.mem_cons_self b u)
  have hamem : a ∈ c := by rw [hat]; exact List.mem_cons_self a t
  have hbmem : b ∈ c := by rw [hat, hbu]; simp
  by_cases hka : a = chooseKeep c
  · have : b ∈ chooseRemove c :=
      (chooseRemove_mem c b).mpr ⟨hbmem, fun h => hab (hka.trans h.symm)⟩
    exact List.ne_nil_of_mem this
  · have : a ∈ chooseRemove c := (chooseRemove_mem c a).mpr ⟨hamem, hka⟩
    exact List.ne_nil_of_mem this

/-- HashDecision models the exact pipeline's per-icon report entry
`report[iconName] = { keep: [...], remove: [...] }`: one object per icon,
with one keep entry pushed per cluster and the removes concatenated. -/
structure HashDecision where
  keep : List Style
  remove : List Style
deriving Repr, DecidableEq

/-- addToHashMap models
`if (!hashMap[hash]) hashMap[hash] = []; hashMap[hash].push(style)` on an
insertion-ordered association list from hash to styles. -/
def addToHashMap (m : List (String × List Style)) (style : Style) (h : String) :
    List (String × List Style) :=
  match m with
  | [] => [(h, [style])]
  | (h2, ss) :: rest =>
    if h2 = h then (h2, ss ++ [style]) :: rest
    else (h2, ss) :: addToHashMap rest style h

/-- buildHashMap models the loop over `Object.entries(hashes)` that fills
`hashMap` (hash to list of styles, in first-occurrence order). -/
def buildHashMap (entries : List (Style × String)) : List (String × List Style) :=
  entries.foldl (fun m e => addToHashMap m e.1 e.2) []

/-- duplicateClusters models
`Object.values(hashMap).filter((g) => g.length > 1)` for one icon, with the
content hash of each variant file supplied by the hash function. -/
def duplicateClusters (hash : FsPath → String) (variants : List (Style × FsPath)) :
    List (List Style) :=
  ((buildHashMap (variants.map (fun v => (v.1, hash v.2)))).map (fun b => b.2)).filter
    (fun g => 1 < g.length)

/-- iconDecision models the loop that pushes each cluster's keep onto
`report[iconName].keep` and appends its removes onto `report[iconName].remove`. -/
def iconDecision (clusters : List (List Style)) : HashDecision :=
  clusters.foldl
    (fun d c => ⟨d.keep ++ [chooseKeep c], d.remove ++ chooseRemove c⟩)
    ⟨[], []⟩

/-- processIconGroups models the exact pipeline's report construction: an icon
gets an entry exactly when it has at least one duplicate cluster. -/
def processIconGroups (hash : FsPath → String)
    (groups : List (IconName × List (Style × FsPath))) :
    List (IconName × HashDecision) :=
  groups.filterMap (fun g =>
    if duplicateClusters hash g.2 = [] then none
    else some (g.1, iconDecision (duplicateClusters hash g.2)))

/-- hashTotalRemoved models the accumulator
`totalFilesRemoved += remove.length` executed once per duplicate cluster. -/
def hashTotalRemoved (hash : FsPath → String)
    (groups : List (IconName × List (Style × FsPath))) : Nat :=
  groups.foldl
    (fun acc g =>
      (duplicateClusters hash g.2).foldl
        (fun a c => a + (chooseRemove c).length) acc)
    0

/-- hashRemovedPerStyle models `removedPerStyle[style]++` executed once per
removed style occurrence; the script only tracks the keys of STYLES. -/
def hashRemovedPerStyle (hash : FsPath → String)
    (groups : List (IconName × List (Style × FsPath))) (s : Style) : Nat :=
  groups.foldl
    (fun acc g =>
      (duplicateClusters hash g.2).foldl
        (fun a c => a + (chooseRemove c).count s) acc)
    0

theorem iconDecision_eq (clusters : List (List Style)) :
    iconDecision clusters =
      ⟨clusters.map chooseKeep, clusters.flatMap chooseRemove⟩ := by
  have hgen : ∀ (cs : List (List Style)) (d : HashDecision),
      cs.foldl (fun d c => ⟨d.keep ++ [chooseKeep c], d.remove ++ chooseRemove c⟩) d =
        ⟨d.keep ++ cs.map chooseKeep, d.remove ++ cs.flatMap chooseRemove⟩ := by
    intro cs
    induction cs with
    | nil => intro d; simp
    | cons c rest ih =>
      intro d
      simp only [List.foldl_cons, ih, List.map_cons, List.flatMap_cons]
      simp [List.append_assoc]
  simpa using hgen clusters ⟨[], []⟩

theorem addToHashMap_flatten (m : List (String × List Style)) (s : Style)
    (h : String) :
    ((addToHashMap m s h).map (fun b => b.2)).flatten.Perm
      (((m.map (fun b => b.2)).flatten) ++ [s]) := by
  induction m with
  | nil => simp [addToHashMap]
  | cons b rest ih =>
    obtain ⟨h2, ss⟩ := b
    unfold addToHashMap
    by_cases hh : h2 = h
    · simp only [if_pos hh, List.map_cons, List.flatten_cons]
      rw [List.append_assoc]
      exact ((List.perm_append_comm).append_left ss).symm.trans
        (by rw [← List.append_assoc])
    · simp only [if_neg hh, List.map_cons, List.flatten_cons]
      rw [List.append_assoc]
      exact (ih.append_left ss).trans (by rw [← List.append_assoc])

theorem buildHashMap_flatten (entries : List (Style × String)) :
    ((buildHashMap entries).map (fun b => b.2)).flatten.Perm
      (entries.map (fun e => e.1)) := by
  have hgen : ∀ (es : List (Style × String)) (m : List (String × List Style)),
      ((es.foldl (fun m e => addToHashMap m e.1 e.2) m).map (fun b => b.2)).flatten.Perm
        (((m.map (fun b => b.2)).flatten) ++ es.map (fun e => e.1)) := by
    intro es
    induction es with
    | nil => intro m; simp
    | cons e rest ih =>
      intro m
      simp only [List.foldl_cons, List.map_cons]
      refine (ih (addToHashMap m e.1 e.2)).trans ?_
      have h1 := addToHashMap_flatten m e.1 e.2
      refine (h1.append_right (rest.map (fun e => e.1))).trans ?_
      rw [List.append_assoc]
      exact List.Perm.refl _
  simpa using hgen entries []

theorem cluster_mem_flatten (hash : FsPath → String)
    (variants : List (Style × FsPath)) (c : List Style)
    (hc : c ∈ duplicateClusters hash variants) :
    c.Sublist ((buildHashMap (variants.map (fun v => (v.1, hash v.2)))).map
      (fun b => b.2)).flatten := by
  unfold duplicateClusters at hc
  exact List.sublist_flatten_of_mem (List.mem_of_mem_filter hc)

theorem cluster_subset_styles (hash : FsPath → String)
    (variants : List (Style × FsPath)) (c : List Style)
    (hc : c ∈ duplicateClusters hash variants) :
    ∀ s ∈ c, s ∈ variants.map (fun v => v.1) := by
  intro s hs
  have h1 := (cluster_mem_flatten hash variants c hc).mem hs
  have h2 := (buildHashMap_flatten (variants.map (fun v => (v.1, hash v.2)))).mem_iff.mp h1
  simpa using h2

theorem cluster_nodup (hash : FsPath → String)
    (variants : List (Style × FsPath)) (c : List Style)
    (hnd : (variants.map (fun v => v.1)).Nodup)
    (hc : c ∈ duplicateClusters hash variants) : c.Nodup := by
  have h1 : (variants.map (fun v => (v.1, hash v.2))).map (fun e => e.1) =
      variants.map (fun v => v.1) := by
    simp
  have h2 : ((buildHashMap (variants.map (fun v => (v.1, hash v.2)))).map
      (fun b => b.2)).flatten.Nodup :=
    (buildHashMap_flatten _).nodup_iff.mpr (h1 ▸ hnd)
  exact h2.sublist (cluster_mem_flatten hash variants c hc)

theorem cluster_length (hash : FsPath → String)
    (variants : List (Style × FsPath)) (c : List Style)
    (hc : c ∈ duplicateClusters hash variants) : 2 ≤ c.length := by
  unfold duplicateClusters at hc
  have := List.of_mem_filter hc
  simpa using this

/-- VisualDecision models the visual pipeline's per-icon report entry
`report[iconName] = { keep, remove }`: a single keep style per icon. -/
structure VisualDecision where
  keep : Style
  remove : List Style
deriving Repr, DecidableEq

/-- orderedPairs lists the unordered pairs of a list in the nested-loop order
`for i; for j = i+1` used by the visual comparison loop. -/
def orderedPairs : List Style → List (Style × Style)
  | [] => []
  | x :: xs => xs.map (fun y => (x, y)) ++ orderedPairs xs

/-- addOnce models adding a key to the `visualDuplicates` map only when it is
not already present (`if (!visualDuplicates.has(x)) visualDuplicates.set(x, ...)`),
tracked here as the insertion-ordered key list. -/
def addOnce (acc : List Style) (s : Style) : List Style :=
  if s ∈ acc then acc else acc ++ [s]

/-- involvedStep models the body of the pair loop: when the oracle judges a
pair equal, both endpoints are added (once) to the `visualDuplicates` map. -/
def involvedStep (oracle : Style → Style → Bool) (acc : List Style)
    (p : Style × Style) : List Style :=
  if oracle p.1 p.2 then addOnce (addOnce acc p.1) p.2 else acc

/-- involvedList models the involved set of one icon: every style touched by
at least one pair the oracle judged visually equal, in first-touch order;
this is `Array.from(allInvolved)` in the script (the value sets of the map
never contribute new members, since every value is also inserted as a key). -/
def involvedList (oracle : Style → Style → Bool) (styles : List Style) :
    List Style :=
  (orderedPairs styles).foldl (involvedStep oracle) []

/-- processVisualDeduplication models the visual pipeline's report: icons with
fewer than two styles are skipped, and an icon gets an entry exactly when its
involved set is non-empty.  The oracle argument abstracts the strict
pixel-comparison of the two rendered 64x64 bitmaps of an icon's style pair. -/
def processVisualDeduplication (oracle : IconName → Style → Style → Bool)
    (groups : List (IconName × List (Style × FsPath))) :
    List (IconName × VisualDecision) :=
  groups.filterMap (fun g =>
    if g.2.length < 2 then none
    else if involvedList (oracle g.1) (g.2.map (fun v => v.1)) = [] then none
    else some (g.1,
      ⟨chooseKeep (involvedList (oracle g.1) (g.2.map (fun v => v.1))),
        chooseRemove (involvedList (oracle g.1) (g.2.map (fun v => v.1)))⟩))

/-- visualTotalToRemove models `totalFilesToRemove++`, which the script only
executes for removed styles that are keys of `removalByStyle` (the styles in
STYLES). -/
def visualTotalToRemove (oracle : IconName → Style → Style → Bool)
    (groups : List (IconName × List (Style × FsPath))) : Nat :=
  groups.foldl
    (fun acc g =>
      if g.2.length < 2 then acc
      else if involvedList (oracle g.1) (g.2.map (fun v => v.1)) = [] then acc
      else acc + ((chooseRemove (involvedList (oracle g.1)
        (g.2.map (fun v => v.1)))).filter (fun s => s ∈ STYLES)).length)
    0

/-- visualRemovedPerStyle models `removalByStyle[style]++` under the same
membership guard. -/
def visualRemovedPerStyle (oracle : IconName → Style → Style → Bool)
    (groups : List (IconName × List (Style × FsPath))) (s : Style) : Nat :=
  groups.foldl
    (fun acc g =>
      if g.2.length < 2 then acc
      else if involvedList (oracle g.1) (g.2.map (fun v => v.1)) = [] then acc
      else acc + ((chooseRemove (involvedList (oracle g.1)
        (g.2.map (fun v => v.1)))).filter (fun t => t ∈ STYLES)).count s)
    0

theorem mem_addOnce (acc : List Style) (s t : Style) :
    t ∈ addOnce acc s ↔ t ∈ acc ∨ t = s := by
  unfold addOnce
  by_cases h : s ∈ acc
  · simp only [if_pos h]
    exact ⟨Or.inl, fun hh => hh.elim id (fun e => e ▸ h)⟩
  · simp [if_neg h]

theorem addOnce_nodup (acc : List Style) (s : Style) (h : acc.Nodup) :
    (addOnce acc s).Nodup := by
  unfold addOnce
  by_cases hs : s ∈ acc
  · simpa [hs]
  · simp only [if_neg hs]
    rw [List.nodup_append]
    refine ⟨h, by simp, ?_⟩
    intro a ha hb
    rw [List.mem_singleton] at hb
    exact hs (hb ▸ ha)

theorem addOnce_length (acc : List Style) (s : Style) :
    acc.length ≤ (addOnce acc s).length := by
  unfold addOnce
  by_cases h : s ∈ acc
  · simp [h]
  · simp [h]

theorem involvedStep_subset (oracle : Style → Style → Bool) (acc : List Style)
    (p : Style × Style) (s : Style) (hs : s ∈ involvedStep oracle acc p) :
    s ∈ acc ∨ s = p.1 ∨ s = p.2 := by
  unfold involvedStep at hs
  by_cases h1 : oracle p.1 p.2
  · simp only [if_pos h1] at hs
    rcases (mem_addOnce _ p.2 s).mp hs with hs | hs
    · rcases (mem_addOnce _ p.1 s).mp hs with hs | hs
      · exact Or.inl hs
      · exact Or.inr (Or.inl hs)
    · exact Or.inr (Or.inr hs)
  · simp only [if_neg h1] at hs
    exact Or.inl hs

theorem orderedPairs_mem (l : List Style) (p : Style × Style)
    (hp : p ∈ orderedPairs l) : p.1 ∈ l ∧ p.2 ∈ l := by
  induction l with
  | nil => simp [orderedPairs] at hp
  | cons x xs ih =>
    unfold orderedPairs at hp
    rw [List.mem_append] at hp
    rcases hp with hp | hp
    · rw [List.mem_map] at hp
      obtain ⟨y, hy, hyp⟩ := hp
      rw [← hyp]
      exact ⟨List.mem_cons_self x xs, List.mem_cons_of_mem x hy⟩
    · obtain ⟨h1, h2⟩ := ih hp
      exact ⟨List.mem_cons_of_mem x h1, List.mem_cons_of_mem x h2⟩

theorem involvedList_subset (oracle : Style → Style → Bool)
    (styles : List Style) : ∀ s ∈ involvedList oracle styles, s ∈ styles := by
  unfold involvedList
  have hgen : ∀ (ps : List (Style × Style)) (acc : List Style),
      (∀ p ∈ ps, p.1 ∈ styles ∧ p.2 ∈ styles) → (∀ s ∈ acc, s ∈ styles) →
      ∀ s ∈ ps.foldl (involvedStep oracle) acc, s ∈ styles := by
    intro ps
    induction ps with
    | nil => intro acc _ hacc; simpa using hacc
    | cons p rest ih =>
      intro acc hps hacc s hs
      refine ih (involvedStep oracle acc p) (fun q hq => hps q (by simp [hq]))
        ?_ s hs
      intro t ht
      rcases involvedStep_subset oracle acc p t ht with h | h | h
      · exact hacc t h
      · exact h ▸ (hps p (by simp)).1
      · exact h ▸ (hps p (by simp)).2
  exact hgen (orderedPairs styles) [] (fun p hp => orderedPairs_mem styles p hp)
    (by simp)

theorem involvedList_nodup (oracle : Style → Style → Bool)
    (styles : List Style) : (involvedList oracle styles).Nodup := by
  unfold involvedList
  have hgen : ∀ (ps : List (Style × Style)) (acc : List Style), acc.Nodup →
      (ps.foldl (involvedStep oracle) acc).Nodup := by
    intro ps
    induction ps with
    | nil => intro acc h; simpa using h
    | cons p rest ih =>
      intro acc h
      refine ih (involvedStep oracle acc p) ?_
      unfold involvedStep
      by_cases h1 : oracle p.1 p.2
      · simp only [if_pos h1]
        exact addOnce_nodup _ p.2 (addOnce_nodup acc p.1 h)
      · simpa [h1]
  exact hgen (orderedPairs styles) [] (by simp)

theorem orderedPairs_ne (l : List Style) (hnd : l.Nodup) (p : Style × Style)
    (hp : p ∈ orderedPairs l) : p.1 ≠ p.2 := by
  induction l with
  | nil => simp [orderedPairs] at hp
  | cons x xs ih =>
    unfold orderedPairs at hp
    rw [List.mem_append] at hp
    rcases hp with hp | hp
    · rw [List.mem_map] at hp
      obtain ⟨y, hy, hyp⟩ := hp
      have hxy : p.1 = x ∧ p.2 = y := by rw [← hyp]; exact ⟨rfl, rfl⟩
      rw [hxy.1, hxy.2]
      intro e
      exact (List.nodup_cons.mp hnd).1 (e ▸ hy)
    · exact ih (List.nodup_cons.mp hnd).2 hp

theorem involvedList_nil_or_two (oracle : Style → Style → Bool)
    (styles : List Style) (hnd : styles.Nodup) :
    involvedList oracle styles = [] ∨ 2 ≤ (involvedList oracle styles).length := by
  unfold involvedList
  have hgen : ∀ (ps : List (Style × Style)) (acc : List Style),
      (∀ p ∈ ps, p.1 ≠ p.2) → (acc = [] ∨ 2 ≤ acc.length) →
      (ps.foldl (involvedStep oracle) acc = [] ∨
        2 ≤ (ps.foldl (involvedStep oracle) acc).length) := by
    intro ps
    induction ps with
    | nil => intro acc _ hacc; simpa using hacc
    | cons p rest ih =>
      intro acc hps hacc
      refine ih (involvedStep oracle acc p) (fun q hq => hps q (by simp [hq])) ?_
      unfold involvedStep
      by_cases h1 : oracle p.1 p.2
      · simp only [if_pos h1]
        refine Or.inr ?_
        rcases hacc with hacc | hacc
        · subst hacc
          have hne := hps p (by simp)
          have h2 : addOnce [] p.1 = [p.1] := by simp [addOnce]
          rw [h2]
          have h3 : addOnce [p.1] p.2 = [p.1, p.2] := by
            unfold addOnce
            rw [if_neg (by simpa using fun e => hne e.symm)]
            rfl
          rw [h3]
          rfl
        · calc 2 ≤ acc.length := hacc
            _ ≤ (addOnce acc p.1).length := addOnce_length acc p.1
            _ ≤ (addOnce (addOnce acc p.1) p.2).length := addOnce_length _ p.2
      · simpa [h1]
  exact hgen (orderedPairs styles) [] (fun p hp => orderedPairs_ne styles hnd p hp)
    (Or.inl rfl)

/-- Groups is the grouper's result type: an insertion-ordered association
list from icon name to style-to-path association list, modelling the nested
JavaScript object `{ icon_name: { style: path } }`. -/
abbrev Groups := List (IconName × List (Style × FsPath))

/-- setStyle models `obj[style] = path` on a JavaScript object: replace the
value of an existing key in place, otherwise append the key at the end. -/
def setStyle (vs : List (Style × FsPath)) (st : Style) (p : FsPath) :
    List (Style × FsPath) :=
  match vs with
  | [] => [(st, p)]
  | (st2, p2) :: rest =>
    if st2 = st then (st, p) :: rest else (st2, p2) :: setStyle rest st p

/-- setIcon models `if (!groups[icon]) groups[icon] = {}; groups[icon][style] = path`. -/
def setIcon (gs : Groups) (ic : IconName) (st : Style) (p : FsPath) : Groups :=
  match gs with
  | [] => [(ic, [(st, p)])]
  | (ic2, vs) :: rest =>
    if ic2 = ic then (ic, setStyle vs st p) :: rest
    else (ic2, vs) :: setIcon rest ic st p

/-- lookupGroup reads `groups[icon][style]` from the association-list model. -/
def lookupGroup (gs : Groups) (ic : IconName) (st : Style) : Option FsPath :=
  match gs.find? (fun g => g.1 = ic) with
  | none => none
  | some g => (g.2.find? (fun v => v.1 = st)).map (fun v => v.2)

/-- pathJoin models `path.join(a, b)` for the simple two-segment joins the
scripts perform (no normalization is ever needed on these inputs). -/
def pathJoin (a b : String) : String := a ++ "/" ++ b

/-- isSvgFile models `file.endsWith(".svg")`: the last four characters are
".svg". -/
def isSvgFile (f : String) : Bool :=
  decide (f.data.drop (f.data.length - 4) = ".svg".data)

/-- svgBase models `path.basename(file, ".svg")` on a bare directory entry:
the name with its trailing ".svg" removed. -/
def svgBase (f : String) : String :=
  String.mk (f.data.take (f.data.length - 4))

/-- fileStep models one iteration of `for (const file of fs.readdirSync(dir))`
for style st: non-".svg" entries are skipped, the rest are recorded under
their base name. -/
def fileStep (dir : String) (st : Style) (gs : Groups) (file : String) : Groups :=
  if isSvgFile file then setIcon gs (svgBase file) st (pathJoin dir file) else gs

/-- styleStep models one iteration of `for (const style of STYLES)`: a missing
style directory (listing none) is skipped silently. -/
def styleStep (root : String) (listing : Style → Option (List String))
    (gs : Groups) (st : Style) : Groups :=
  match listing st with
  | none => gs
  | some files => files.foldl (fileStep (pathJoin root st) st) gs

/-- groupIconsByName models the grouper of both pipeline scripts over an
abstract filesystem: root is the icon directory and listing gives each style
subdirectory's entries (none when the directory does not exist). -/
def groupIconsByName (root : String) (listing : Style → Option (List String)) :
    Groups :=
  STYLES.foldl (styleStep root listing) []

/-- groupSpec is the content of the grouper's result, phrased directly over
the filesystem state: icon ic has style st exactly when st is a scanned style
whose directory contains the entry `ic ++ ".svg"`. -/
def groupSpec (root : String) (listing : Style → Option (List String))
    (ic : IconName) (st : Style) : Option FsPath :=
  if st ∈ STYLES then
    match listing st with
    | none => none
    | some files =>
      if (ic ++ ".svg") ∈ files then
        some (pathJoin (pathJoin root st) (ic ++ ".svg"))
      else none
  else none

theorem isSvgFile_append (ic : String) : isSvgFile (ic ++ ".svg") = true := by
  unfold isSvgFile
  have hdata : (ic ++ ".svg").data = ic.data ++ ".svg".data := rfl
  rw [decide_eq_true_iff, hdata]
  have hlen : (ic.data ++ ".svg".data).length - 4 = ic.data.length := by
    rw [List.length_append]
    rfl
  rw [hlen]
  exact List.drop_left ic.data ".svg".data

theorem svgBase_append (ic : String) : svgBase (ic ++ ".svg") = ic := by
  unfold svgBase
  have hdata : (ic ++ ".svg").data = ic.data ++ ".svg".data := rfl
  rw [hdata]
  have hlen : (ic.data ++ ".svg".data).length - 4 = ic.data.length := by
    rw [List.length_append]
    rfl
  rw [hlen, List.take_left]

theorem svg_name_eq (f : String) (hf : isSvgFile f = true) :
    f = svgBase f ++ ".svg" := by
  unfold isSvgFile at hf
  rw [decide_eq_true_iff] at hf
  have hdata : (svgBase f ++ ".svg").data = (svgBase f).data ++ ".svg".data := rfl
  have hbase : (svgBase f).data = f.data.take (f.data.length - 4) := rfl
  have hsplit : f.data = f.data.take (f.data.length - 4) ++ ".svg".data := by
    conv_lhs => rw [← List.take_append_drop (f.data.length - 4) f.data]
    rw [hf]
  have hdat : f.data = (svgBase f ++ ".svg").data := by
    rw [hdata, hbase]
    exact hsplit
  calc f = String.mk f.data := rfl
    _ = String.mk ((svgBase f ++ ".svg").data) := by rw [hdat]
    _ = svgBase f ++ ".svg" := rfl

theorem find_setStyle (vs : List (Style × FsPath)) (st st2 : Style) (p : FsPath) :
    (setStyle vs st p).find? (fun v => v.1 = st2) =
      if st2 = st then some (st, p) else vs.find? (fun v => v.1 = st2) := by
  induction vs with
  | nil =>
    by_cases h : st2 = st
    · simp [setStyle, h]
    · unfold setStyle
      rw [if_neg h,
        List.find?_cons_of_neg _ (by simpa using fun e => h (Eq.symm e))]
  | cons v rest ih =>
    obtain ⟨st3, p3⟩ := v
    unfold setStyle
    by_cases h3 : st3 = st
    · simp only [if_pos h3]
      by_cases h2 : st2 = st
      · simp [h2]
      · rw [List.find?_cons_of_neg _ (by simpa using fun e => h2 (Eq.symm e)),
          if_neg h2,
          List.find?_cons_of_neg _ (by simpa using fun e => h2 (Eq.symm (h3 ▸ e)))]
    · simp only [if_neg h3]
      by_cases h32 : st3 = st2
      · have h2 : st2 ≠ st := fun e => h3 (h32.trans e)
        rw [List.find?_cons_of_pos _ (by simpa using h32), if_neg h2,
          List.find?_cons_of_pos _ (by simpa using h32)]
      · rw [List.find?_cons_of_neg _ (by simpa using h32), ih,
          List.find?_cons_of_neg _ (by simpa using h32)]

theorem lookupGroup_setIcon (gs : Groups) (ic ic2 : IconName) (st st2 : Style)
    (p : FsPath) :
    lookupGroup (setIcon gs ic st p) ic2 st2 =
      if ic2 = ic ∧ st2 = st then some p else lookupGroup gs ic2 st2 := by
  induction gs with
  | nil =>
    unfold setIcon lookupGroup
    by_cases h : ic2 = ic
    · rw [List.find?_cons_of_pos _ (by simpa using Eq.symm h)]
      by_cases h2 : st2 = st
      · simp [h, h2]
      · simp only [h, h2, and_false, if_false]
        rw [List.find?_cons_of_neg _ (by simpa using fun e => h2 (Eq.symm e))]
        simp
    · rw [List.find?_cons_of_neg _ (by simpa using fun e => h (Eq.symm e))]
      simp [h]
  | cons g rest ih =>
    obtain ⟨ic3, vs⟩ := g
    unfold setIcon
    by_cases h3 : ic3 = ic
    · simp only [if_pos h3]
      by_cases h2 : ic2 = ic
      · unfold lookupGroup
        rw [List.find?_cons_of_pos _ (by simpa using Eq.symm h2),
          List.find?_cons_of_pos _ (by simpa using (h3.trans (Eq.symm h2)))]
        simp only [find_setStyle]
        by_cases hst : st2 = st
        · simp [h2, hst]
        · simp [h2, hst]
      · unfold lookupGroup
        rw [List.find?_cons_of_neg _ (by simpa using fun e => h2 (Eq.symm e)),
          List.find?_cons_of_neg _
            (by simpa using fun e => h2 (Eq.symm (h3 ▸ e)))]
        simp [h2]
    · simp only [if_neg h3]
      by_cases h32 : ic2 = ic3
      · have h2 : ic2 ≠ ic := fun e => h3 (h32.symm.trans e)
        unfold lookupGroup
        rw [List.find?_cons_of_pos _ (by simpa using Eq.symm h32),
          List.find?_cons_of_pos _ (by simpa using Eq.symm h32)]
        simp [h2]
      · unfold lookupGroup
        rw [List.find?_cons_of_neg _ (by simpa using fun e => h32 (Eq.symm e)),
          List.find?_cons_of_neg _ (by simpa using fun e => h32 (Eq.symm e))]
        exact ih

theorem lookup_fileStep (dir : String) (st : Style) (gs : Groups)
    (file : String) (ic : IconName) (st2 : Style) :
    lookupGroup (fileStep dir st gs file) ic st2 =
      if st2 = st ∧ file = ic ++ ".svg" then some (pathJoin dir file)
      else lookupGroup gs ic st2 := by
  unfold fileStep
  by_cases hsvg : isSvgFile file = true
  · rw [if_pos hsvg, lookupGroup_setIcon]
    have hiff : (ic = svgBase file ∧ st2 = st) ↔ (st2 = st ∧ file = ic ++ ".svg") := by
      constructor
      · rintro ⟨h1, h2⟩
        refine ⟨h2, ?_⟩
        rw [h1]
        exact svg_name_eq file hsvg
      · rintro ⟨h2, h1⟩
        refine ⟨?_, h2⟩
        rw [h1, svgBase_append]
    by_cases hc : ic = svgBase file ∧ st2 = st
    · rw [if_pos hc, if_pos (hiff.mp hc)]
    · rw [if_neg hc, if_neg (fun hh => hc (hiff.mpr hh))]
  · rw [if_neg hsvg]
    by_cases hc : st2 = st ∧ file = ic ++ ".svg"
    · exact absurd (by rw [hc.2]; exact isSvgFile_append ic) hsvg
    · rw [if_neg hc]

theorem lookup_filesFold (dir : String) (st : Style) (files : List String)
    (gs : Groups) (ic : IconName) (st2 : Style) :
    lookupGroup (files.foldl (fileStep dir st) gs) ic st2 =
      if st2 = st ∧ (ic ++ ".svg") ∈ files then
        some (pathJoin dir (ic ++ ".svg"))
      else lookupGroup gs ic st2 := by
  induction files generalizing gs with
  | nil => simp
  | cons f fs ih =>
    rw [List.foldl_cons, ih]
    by_cases h1 : st2 = st ∧ (ic ++ ".svg") ∈ fs
    · rw [if_pos h1, if_pos ⟨h1.1, List.mem_cons_of_mem f h1.2⟩]
    · rw [if_neg h1, lookup_fileStep]
      by_cases h2 : st2 = st ∧ f = ic ++ ".svg"
      · rw [if_pos h2,
          if_pos ⟨h2.1, by rw [← h2.2]; exact List.mem_cons_self f fs⟩, h2.2]
      · rw [if_neg h2]
        have hno : ¬(st2 = st ∧ (ic ++ ".svg") ∈ f :: fs) := by
          rintro ⟨ha, hb⟩
          rcases List.mem_cons.mp hb with hb | hb
          · exact h2 ⟨ha, hb.symm⟩
          · exact h1 ⟨ha, hb⟩
        rw [if_neg hno]

theorem lookup_styleStep_ne (root : String)
    (listing : Style → Option (List String)) (gs : Groups) (st st2 : Style)
    (ic : IconName) (hne : st2 ≠ st) :
    lookupGroup (styleStep root listing gs st) ic st2 = lookupGroup gs ic st2 := by
  unfold styleStep
  cases h : listing st with
  | none => rfl
  | some files =>
    rw [lookup_filesFold]
    rw [if_neg (fun hh => hne hh.1)]

theorem lookup_styleStep_eq (root : String)
    (listing : Style → Option (List String)) (gs : Groups) (st : Style)
    (ic : IconName) :
    lookupGroup (styleStep root listing gs st) ic st =
      match listing st with
      | none => lookupGroup gs ic st
      | some files =>
        if (ic ++ ".svg") ∈ files then
          some (pathJoin (pathJoin root st) (ic ++ ".svg"))
        else lookupGroup gs ic st := by
  unfold styleStep
  cases h : listing st with
  | none => rfl
  | some files =>
    rw [lookup_filesFold]
    dsimp only
    by_cases hm : (ic ++ ".svg") ∈ files
    · rw [if_pos ⟨rfl, hm⟩, if_pos hm]
    · rw [if_neg (fun hh => hm hh.2), if_neg hm]

theorem lookup_stylesFold_notMem (root : String)
    (listing : Style → Option (List String)) (ss : List Style) (gs : Groups)
    (ic : IconName) (st2 : Style) (h : st2 ∉ ss) :
    lookupGroup (ss.foldl (styleStep root listing) gs) ic st2 =
      lookupGroup gs ic st2 := by
  induction ss generalizing gs with
  | nil => rfl
  | cons s rest ih =>
    rw [List.foldl_cons, ih _ (fun hh => h (List.mem_cons_of_mem s hh))]
    exact lookup_styleStep_ne root listing gs s st2 ic
      (fun e => h (e ▸ List.mem_cons_self s rest))

theorem lookup_stylesFold_mem (root : String)
    (listing : Style → Option (List String)) (ss : List Style) (gs : Groups)
    (ic : IconName) (st2 : Style) (hnd : ss.Nodup) (hmem : st2 ∈ ss) :
    lookupGroup (ss.foldl (styleStep root listing) gs) ic st2 =
      match listing st2 with
      | none => lookupGroup gs ic st2
      | some files =>
        if (ic ++ ".svg") ∈ files then
          some (pathJoin (pathJoin root st2) (ic ++ ".svg"))
        else lookupGroup gs ic st2 := by
  induction ss generalizing gs with
  | nil => simp at hmem
  | cons s rest ih =>
    rw [List.foldl_cons]
    rcases List.mem_cons.mp hmem with he | hm
    · have hnotin : st2 ∉ rest := he ▸ (List.nodup_cons.mp hnd).1
      rw [lookup_stylesFold_notMem root listing rest _ ic st2 hnotin, ← he]
      exact lookup_styleStep_eq root listing gs st2 ic
    · have hne : st2 ≠ s := fun e => (List.nodup_cons.mp hnd).1 (e ▸ hm)
      rw [ih _ (List.nodup_cons.mp hnd).2 hm]
      cases h : listing st2 with
      | none => exact lookup_styleStep_ne root listing gs s st2 ic hne
      | some files =>
        dsimp only
        by_cases hmf : (ic ++ ".svg") ∈ files
        · rw [if_pos hmf, if_pos hmf]
        · rw [if_neg hmf, if_neg hmf]
          exact lookup_styleStep_ne root listing gs s st2 ic hne

theorem lookupGroup_groupIconsByName (root : String)
    (listing : Style → Option (List String)) (ic : IconName) (st : Style) :
    lookupGroup (groupIconsByName root listing) ic st =
      groupSpec root listing ic st := by
  unfold groupIconsByName groupSpec
  by_cases h : st ∈ STYLES
  · rw [if_pos h, lookup_stylesFold_mem root listing STYLES [] ic st (by decide) h]
    cases hl : listing st with
    | none => rfl
    | some files =>
      dsimp only
      by_cases hm : (ic ++ ".svg") ∈ files
      · rw [if_pos hm, if_pos hm]
      · rw [if_neg hm, if_neg hm]
        rfl
  · rw [if_neg h, lookup_stylesFold_notMem root listing STYLES [] ic st h]
    rfl

/-- groupsWf states the structural invariant of the grouper's nested object:
per icon, the style keys are distinct and all drawn from STYLES. -/
def groupsWf (gs : Groups) : Prop :=
  ∀ g ∈ gs, (g.2.map (fun v => v.1)).Nodup ∧ ∀ v ∈ g.2, v.1 ∈ STYLES

theorem mem_keys_setStyle (vs : List (Style × FsPath)) (st : Style) (p : FsPath)
    (x : Style) (hx : x ∈ (setStyle vs st p).map (fun v => v.1)) :
    x ∈ vs.map (fun v => v.1) ∨ x = st := by
  induction vs with
  | nil =>
    simp [setStyle] at hx
    exact Or.inr hx
  | cons v rest ih =>
    obtain ⟨st2, p2⟩ := v
    unfold setStyle at hx
    by_cases h : st2 = st
    · rw [if_pos h] at hx
      simp only [List.map_cons, List.mem_cons] at hx
      rcases hx with hx | hx
      · exact Or.inr hx
      · exact Or.inl (by simp only [List.map_cons, List.mem_cons]; exact Or.inr hx)
    · rw [if_neg h] at hx
      simp only [List.map_cons, List.mem_cons] at hx
      rcases hx with hx | hx
      · exact Or.inl (by simp only [List.map_cons, List.mem_cons]; exact Or.inl hx)
      · rcases ih hx with hh | hh
        · exact Or.inl (by simp only [List.map_cons, List.mem_cons]; exact Or.inr hh)
        · exact Or.inr hh

theorem setStyle_wf (vs : List (Style × FsPath)) (st : Style) (p : FsPath)
    (hnd : (vs.map (fun v => v.1)).Nodup) (hsub : ∀ v ∈ vs, v.1 ∈ STYLES)
    (hst : st ∈ STYLES) :
    ((setStyle vs st p).map (fun v => v.1)).Nodup ∧
      ∀ v ∈ setStyle vs st p, v.1 ∈ STYLES := by
  induction vs with
  | nil =>
    constructor
    · simp [setStyle]
    · intro v hv
      simp [setStyle] at hv
      rw [hv]
      exact hst
  | cons w rest ih =>
    obtain ⟨st2, p2⟩ := w
    unfold setStyle
    by_cases h : st2 = st
    · rw [if_pos h]
      simp only [List.map_cons, List.nodup_cons] at hnd ⊢
      subst h
      refine ⟨⟨hnd.1, hnd.2⟩, ?_⟩
      intro v hv
      rcases List.mem_cons.mp hv with hv | hv
      · rw [hv]; exact hst
      · exact hsub v (List.mem_cons_of_mem _ hv)
    · rw [if_neg h]
      simp only [List.map_cons, List.nodup_cons] at hnd ⊢
      have hrest := ih hnd.2 (fun v hv => hsub v (List.mem_cons_of_mem _ hv))
      refine ⟨⟨?_, hrest.1⟩, ?_⟩
      · intro hmem
        rcases mem_keys_setStyle rest st p st2 hmem with hh | hh
        · exact hnd.1 hh
        · exact h hh
      · intro v hv
        rcases List.mem_cons.mp hv with hv | hv
        · rw [hv]
          exact hsub (st2, p2) (List.mem_cons_self _ _)
        · exact hrest.2 v hv

theorem setIcon_wf (gs : Groups) (ic : IconName) (st : Style) (p : FsPath)
    (hwf : groupsWf gs) (hst : st ∈ STYLES) : groupsWf (setIcon gs ic st p) := by
  induction gs with
  | nil =>
    intro g hg
    simp [setIcon] at hg
    rw [hg]
    constructor
    · simp
    · intro v hv
      simp at hv
      rw [hv]
      exact hst
  | cons w rest ih =>
    obtain ⟨ic2, vs⟩ := w
    unfold setIcon
    by_cases h : ic2 = ic
    · rw [if_pos h]
      intro g hg
      rcases List.mem_cons.mp hg with hg | hg
      · rw [hg]
        have hw := hwf (ic2, vs) (List.mem_cons_self _ _)
        exact setStyle_wf vs st p hw.1 hw.2 hst
      · exact hwf g (List.mem_cons_of_mem _ hg)
    · rw [if_neg h]
      intro g hg
      rcases List.mem_cons.mp hg with hg | hg
      · rw [hg]
        exact hwf (ic2, vs) (List.mem_cons_self _ _)
      · exact ih (fun g2 hg2 => hwf g2 (List.mem_cons_of_mem _ hg2)) g hg

theorem groupIconsByName_wf (root : String)
    (listing : Style → Option (List String)) :
    groupsWf (groupIconsByName root listing) := by
  unfold groupIconsByName
  have hgen : ∀ (ss : List Style) (gs : Groups), (∀ s ∈ ss, s ∈ STYLES) →
      groupsWf gs → groupsWf (ss.foldl (styleStep root listing) gs) := by
    intro ss
    induction ss with
    | nil => intro gs _ h; simpa using h
    | cons s rest ih =>
      intro gs hss hwf
      rw [List.foldl_cons]
      refine ih _ (fun t ht => hss t (List.mem_cons_of_mem s ht)) ?_
      unfold styleStep
      cases hl : listing s with
      | none => exact hwf
      | some files =>
        have hs : s ∈ STYLES := hss s (List.mem_cons_self s rest)
        clear hl
        induction files generalizing gs with
        | nil => simpa using hwf
        | cons f fs ihf =>
          dsimp only
          rw [List.foldl_cons]
          refine ihf _ ?_
          unfold fileStep
          by_cases hf : isSvgFile f = true
          · rw [if_pos hf]
            exact setIcon_wf gs (svgBase f) s (pathJoin (pathJoin root s) f) hwf hs
          · rw [if_neg hf]
            exact hwf
  exact hgen STYLES [] (fun s hs => hs) (by intro g hg; simp at hg)

theorem foldl_add_map {α : Type} (f : α → Nat) (l : List α) (n : Nat) :
    l.foldl (fun a x => a + f x) n = n + (l.map f).sum := by
  induction l generalizing n with
  | nil => simp
  | cons x xs ih =>
    rw [List.foldl_cons, ih, List.map_cons, List.sum_cons]
    omega

theorem sum_map_add {α : Type} (f g : α → Nat) (l : List α) :
    (l.map (fun x => f x + g x)).sum = (l.map f).sum + (l.map g).sum := by
  induction l with
  | nil => simp
  | cons x xs ih =>
    simp only [List.map_cons, List.sum_cons, ih]
    omega

theorem sum_map_comm {α β : Type} (l : List α) (m : List β) (f : α → β → Nat) :
    (l.map (fun x => (m.map (f x)).sum)).sum =
      (m.map (fun y => (l.map (fun x => f x y)).sum)).sum := by
  induction l with
  | nil =>
    simp only [List.map_nil, List.sum_nil, List.map_nil]
    symm
    apply List.sum_eq_zero
    intro n hn
    rw [List.mem_map] at hn
    obtain ⟨y, _, hy⟩ := hn
    simpa using hy.symm
  | cons x xs ih =>
    simp only [List.map_cons, List.sum_cons, ih]
    rw [← sum_map_add (fun y => f x y)
      (fun y => (xs.map (fun x2 => f x2 y)).sum) m]

theorem sum_indicator_one (S : List String) (x : String) (hnd : S.Nodup)
    (hx : x ∈ S) : (S.map (fun s => if x = s then 1 else 0)).sum = 1 := by
  induction S with
  | nil => simp at hx
  | cons a t ih =>
    rcases List.mem_cons.mp hx with h | h
    · subst h
      have hz : (t.map (fun s => if x = s then 1 else 0)).sum = 0 := by
        apply List.sum_eq_zero
        intro n hn
        rw [List.mem_map] at hn
        obtain ⟨s, hs, hsn⟩ := hn
        rw [← hsn,
          if_neg (fun e => (List.nodup_cons.mp hnd).1 (by rw [e]; exact hs))]
      rw [List.map_cons, List.sum_cons, hz, if_pos rfl]
    · have hxa : x ≠ a := fun e => (List.nodup_cons.mp hnd).1 (e ▸ h)
      simp [hxa, ih (List.nodup_cons.mp hnd).2 h]

theorem sum_count_eq_length (S : List String) (hnd : S.Nodup) (l : List String)
    (hsub : ∀ x ∈ l, x ∈ S) : (S.map (fun s => l.count s)).sum = l.length := by
  induction l with
  | nil => simp
  | cons x t ih =>
    have h1 : S.map (fun s => (x :: t).count s) =
        S.map (fun s => t.count s + (if x = s then 1 else 0)) := by
      apply List.map_congr_left
      intro s _
      rw [List.count_cons]
      by_cases h : x = s
      · simp [h]
      · simp [h]
    rw [h1, sum_map_add, sum_indicator_one S x hnd (hsub x (List.mem_cons_self x t)),
      ih (fun y hy => hsub y (List.mem_cons_of_mem x hy))]
    simp

theorem hashTotalRemoved_eq (hash : FsPath → String)
    (groups : List (IconName × List (Style × FsPath))) :
    hashTotalRemoved hash groups =
      (groups.map (fun g => ((duplicateClusters hash g.2).map
        (fun c => (chooseRemove c).length)).sum)).sum := by
  unfold hashTotalRemoved
  have hfn : (fun (acc : Nat) (g : IconName × List (Style × FsPath)) =>
        (duplicateClusters hash g.2).foldl
          (fun a c => a + (chooseRemove c).length) acc) =
      (fun (acc : Nat) (g : IconName × List (Style × FsPath)) =>
        acc + ((duplicateClusters hash g.2).map
          (fun c => (chooseRemove c).length)).sum) := by
    funext acc g
    exact foldl_add_map _ _ acc
  rw [hfn, foldl_add_map]
  simp

theorem hashRemovedPerStyle_eq (hash : FsPath → String)
    (groups : List (IconName × List (Style × FsPath))) (s : Style) :
    hashRemovedPerStyle hash groups s =
      (groups.map (fun g => ((duplicateClusters hash g.2).map
        (fun c => (chooseRemove c).count s)).sum)).sum := by
  unfold hashRemovedPerStyle
  have hfn : (fun (acc : Nat) (g : IconName × List (Style × FsPath)) =>
        (duplicateClusters hash g.2).foldl
          (fun a c => a + (chooseRemove c).count s) acc) =
      (fun (acc : Nat) (g : IconName × List (Style × FsPath)) =>
        acc + ((duplicateClusters hash g.2).map
          (fun c => (chooseRemove c).count s)).sum) := by
    funext acc g
    exact foldl_add_map _ _ acc
  rw [hfn, foldl_add_map]
  simp

theorem processIconGroups_remove_sum (hash : FsPath → String)
    (groups : List (IconName × List (Style × FsPath))) :
    ((processIconGroups hash groups).map (fun e => e.2.remove.length)).sum =
      (groups.map (fun g => ((duplicateClusters hash g.2).map
        (fun c => (chooseRemove c).length)).sum)).sum := by
  unfold processIconGroups
  induction groups with
  | nil => simp
  | cons g gs ih =>
    rw [List.filterMap_cons]
    by_cases h : duplicateClusters hash g.2 = []
    · have hred : (if duplicateClusters hash g.2 = [] then none
          else some (g.1, iconDecision (duplicateClusters hash g.2))) = none :=
        if_pos h
      rw [hred]
      dsimp only
      rw [ih, List.map_cons, List.sum_cons, h]
      simp
    · have hred : (if duplicateClusters hash g.2 = [] then none
          else some (g.1, iconDecision (duplicateClusters hash g.2))) =
            some (g.1, iconDecision (duplicateClusters hash g.2)) :=
        if_neg h
      rw [hred]
      dsimp only
      rw [List.map_cons, List.sum_cons, ih, List.map_cons, List.sum_cons,
        iconDecision_eq]
      simp only [List.length_flatMap]
      rfl

/-- visualGroupRemove is the remove list the visual pipeline computes for one
icon group (empty when the icon is skipped or has no involved styles). -/
def visualGroupRemove (oracle : IconName → Style → Style → Bool)
    (g : IconName × List (Style × FsPath)) : List Style :=
  if g.2.length < 2 then []
  else if involvedList (oracle g.1) (g.2.map (fun v => v.1)) = [] then []
  else chooseRemove (involvedList (oracle g.1) (g.2.map (fun v => v.1)))

/-- visualGroupRemoveFiltered is the part of that remove list the statistics
accumulators actually count (styles that are keys of `removalByStyle`). -/
def visualGroupRemoveFiltered (oracle : IconName → Style → Style → Bool)
    (g : IconName × List (Style × FsPath)) : List Style :=
  (visualGroupRemove oracle g).filter (fun s => s ∈ STYLES)

theorem visualTotalToRemove_eq (oracle : IconName → Style → Style → Bool)
    (groups : List (IconName × List (Style × FsPath))) :
    visualTotalToRemove oracle groups =
      (groups.map (fun g => (visualGroupRemoveFiltered oracle g).length)).sum := by
  unfold visualTotalToRemove
  have hfn : (fun (acc : Nat) (g : IconName × List (Style × FsPath)) =>
        if g.2.length < 2 then acc
        else if involvedList (oracle g.1) (g.2.map (fun v => v.1)) = [] then acc
        else acc + ((chooseRemove (involvedList (oracle g.1)
          (g.2.map (fun v => v.1)))).filter (fun s => s ∈ STYLES)).length) =
      (fun (acc : Nat) (g : IconName × List (Style × FsPath)) =>
        acc + (visualGroupRemoveFiltered oracle g).length) := by
    funext acc g
    unfold visualGroupRemoveFiltered visualGroupRemove
    by_cases h1 : g.2.length < 2
    · simp [h1]
    · by_cases h2 : involvedList (oracle g.1) (g.2.map (fun v => v.1)) = []
      · simp [h1, h2]
      · simp [h1, h2]
  rw [hfn, foldl_add_map]
  simp

theorem visualRemovedPerStyle_eq (oracle : IconName → Style → Style → Bool)
    (groups : List (IconName × List (Style × FsPath))) (s : Style) :
    visualRemovedPerStyle oracle groups s =
      (groups.map (fun g => (visualGroupRemoveFiltered oracle g).count s)).sum := by
  unfold visualRemovedPerStyle
  have hfn : (fun (acc : Nat) (g : IconName × List (Style × FsPath)) =>
        if g.2.length < 2 then acc
        else if involvedList (oracle g.1) (g.2.map (fun v => v.1)) = [] then acc
        else acc + ((chooseRemove (involvedList (oracle g.1)
          (g.2.map (fun v => v.1)))).filter (fun t => t ∈ STYLES)).count s) =
      (fun (acc : Nat) (g : IconName × List (Style × FsPath)) =>
        acc + (visualGroupRemoveFiltered oracle g).count s) := by
    funext acc g
    unfold visualGroupRemoveFiltered visualGroupRemove
    by_cases h1 : g.2.length < 2
    · simp [h1]
    · by_cases h2 : involvedList (oracle g.1) (g.2.map (fun v => v.1)) = []
      · simp [h1, h2]
      · simp [h1, h2]
  rw [hfn, foldl_add_map]
  simp

theorem processVisual_remove_sum (oracle : IconName → Style → Style → Bool)
    (groups : List (IconName × List (Style × FsPath))) :
    ((processVisualDeduplication oracle groups).map
      (fun e => e.2.remove.length)).sum =
      (groups.map (fun g => (visualGroupRemove oracle g).length)).sum := by
  unfold processVisualDeduplication
  induction groups with
  | nil => simp
  | cons g gs ih =>
    rw [List.filterMap_cons]
    by_cases h1 : g.2.length < 2
    · have hred : (if g.2.length < 2 then none
          else if involvedList (oracle g.1) (g.2.map (fun v => v.1)) = [] then none
          else some (g.1,
            (⟨chooseKeep (involvedList (oracle g.1) (g.2.map (fun v => v.1))),
              chooseRemove (involvedList (oracle g.1) (g.2.map (fun v => v.1)))⟩ :
              VisualDecision))) = none := if_pos h1
      rw [hred]
      dsimp only
      rw [ih, List.map_cons, List.sum_cons]
      unfold visualGroupRemove
      rw [if_pos h1]
      simp
    · by_cases h2 : involvedList (oracle g.1) (g.2.map (fun v => v.1)) = []
      · have hred : (if g.2.length < 2 then none
            else if involvedList (oracle g.1) (g.2.map (fun v => v.1)) = [] then none
            else some (g.1,
              (⟨chooseKeep (involvedList (oracle g.1) (g.2.map (fun v => v.1))),
                chooseRemove (involvedList (oracle g.1) (g.2.map (fun v => v.1)))⟩ :
                VisualDecision))) = none := by
          rw [if_neg h1, if_pos h2]
        rw [hred]
        dsimp only
        rw [ih, List.map_cons, List.sum_cons]
        unfold visualGroupRemove
        rw [if_neg h1, if_pos h2]
        simp
      · have hred : (if g.2.length < 2 then none
            else if involvedList (oracle g.1) (g.2.map (fun v => v.1)) = [] then none
            else some (g.1,
              (⟨chooseKeep (involvedList (oracle g.1) (g.2.map (fun v => v.1))),
                chooseRemove (involvedList (oracle g.1) (g.2.map (fun v => v.1)))⟩ :
                VisualDecision))) = some (g.1,
              ⟨chooseKeep (involvedList (oracle g.1) (g.2.map (fun v => v.1))),
                chooseRemove (involvedList (oracle g.1) (g.2.map (fun v => v.1)))⟩) := by
          rw [if_neg h1, if_neg h2]
        rw [hred]
        dsimp only
        rw [List.map_cons, List.sum_cons, ih, List.map_cons, List.sum_cons]
        unfold visualGroupRemove
        rw [if_neg h1, if_neg h2]

theorem visualGroupRemoveFiltered_eq_of_wf
    (oracle : IconName → Style → Style → Bool)
    (g : IconName × List (Style × FsPath))
    (hsub : ∀ v ∈ g.2, v.1 ∈ STYLES) :
    visualGroupRemoveFiltered oracle g = visualGroupRemove oracle g := by
  unfold visualGroupRemoveFiltered
  apply List.filter_eq_self.mpr
  intro a ha
  unfold visualGroupRemove at ha
  by_cases h1 : g.2.length < 2
  · rw [if_pos h1] at ha
    simp at ha
  · rw [if_neg h1] at ha
    by_cases h2 : involvedList (oracle g.1) (g.2.map (fun v => v.1)) = []
    · rw [if_pos h2] at ha
      simp at ha
    · rw [if_neg h2] at ha
      have h3 : a ∈ involvedList (oracle g.1) (g.2.map (fun v => v.1)) :=
        ((chooseRemove_mem _ a).mp ha).1
      have h4 : a ∈ g.2.map (fun v => v.1) :=
        involvedList_subset (oracle g.1) (g.2.map (fun v => v.1)) a h3
      rw [List.mem_map] at h4
      obtain ⟨v, hv, hva⟩ := h4
      have := hsub v hv
      rw [hva] at this
      simp only [decide_eq_true_iff]
      exact this

/-- Json is the fragment of JSON the reports serialize into. -/
inductive Json where
  | str : String → Json
  | arr : List Json → Json
  | obj : List (String × Json) → Json

/-- isArr tests a Json value for the array shape (`Array.isArray`). -/
def Json.isArr : Json → Bool
  | Json.arr _ => true
  | _ => false

/-- entryJson serializes one exact-pipeline report entry, the object
`{ keep: [...], remove: [...] }` that `JSON.stringify` writes per icon. -/
def entryJson (d : HashDecision) : Json :=
  Json.obj [("keep", Json.arr (d.keep.map Json.str)),
    ("remove", Json.arr (d.remove.map Json.str))]

/-- hashReportJson serializes the exact pipeline's whole report object. -/
def hashReportJson (report : List (IconName × HashDecision)) : Json :=
  Json.obj (report.map (fun e => (e.1, entryJson e.2)))

/-- HashEntry models the value under one icon name as the hash-report deleter
reads it back from JSON: either a single decision object or an array of them. -/
inductive HashEntry where
  | single : HashDecision → HashEntry
  | multi : List HashDecision → HashEntry

/-- normalizeEntry models `Array.isArray(entry) ? entry : [entry]`. -/
def normalizeEntry : HashEntry → List HashDecision
  | HashEntry.single d => [d]
  | HashEntry.multi ds => ds

/-- targetPath is `path.join(ICON_DIR, style, iconName + ".svg")`. -/
def targetPath (iconDir style iconName : String) : String :=
  pathJoin (pathJoin iconDir style) (iconName ++ ".svg")

/-- delStep models one removal iteration over the filesystem (the list of
existing paths) and the deletion counter:
`if (fs.existsSync(filePath)) { fs.unlinkSync(filePath); totalDeleted++; }`. -/
def delStep (fsn : List String × Nat) (p : String) : List String × Nat :=
  if p ∈ fsn.1 then (fsn.1.filter (fun q => q ≠ p), fsn.2 + 1) else fsn

/-- runHashDeleter models the deletion loops of deleteFilesByHashReport over
an already parsed report. -/
def runHashDeleter (iconDir : String) (report : List (IconName × HashEntry))
    (fs : List String) : List String × Nat :=
  report.foldl
    (fun acc e =>
      (normalizeEntry e.2).foldl
        (fun acc2 d =>
          d.remove.foldl (fun a st => delStep a (targetPath iconDir st e.1)) acc2)
        acc)
    (fs, 0)

/-- deleteFilesByHashReport models the whole hash-report consumer; the Bool
records whether the missing-report error was printed. -/
def deleteFilesByHashReport (iconDir reportPath : String) (fs : List String)
    (content : List (IconName × HashEntry)) : (List String × Nat) × Bool :=
  if reportPath ∈ fs then (runHashDeleter iconDir content fs, false)
  else ((fs, 0), true)

/-- runVisualDeleter models the deletion loops of deleteFilesByVisualReport. -/
def runVisualDeleter (iconDir : String)
    (report : List (IconName × VisualDecision)) (fs : List String) :
    List String × Nat :=
  report.foldl
    (fun acc e =>
      e.2.remove.foldl (fun a st => delStep a (targetPath iconDir st e.1)) acc)
    (fs, 0)

/-- deleteFilesByVisualReport models the whole visual-report consumer. -/
def deleteFilesByVisualReport (iconDir reportPath : String) (fs : List String)
    (content : List (IconName × VisualDecision)) : (List String × Nat) × Bool :=
  if reportPath ∈ fs then (runVisualDeleter iconDir content fs, false)
  else ((fs, 0), true)

/-- hashTargets flattens a hash report into the ordered list of file paths its
deletion loops visit. -/
def hashTargets (iconDir : String) (report : List (IconName × HashEntry)) :
    List String :=
  report.flatMap (fun e =>
    (normalizeEntry e.2).flatMap (fun d =>
      d.remove.map (fun st => targetPath iconDir st e.1)))

/-- visualTargets flattens a visual report into the ordered list of file
paths its deletion loop visits. -/
def visualTargets (iconDir : String)
    (report : List (IconName × VisualDecision)) : List String :=
  report.flatMap (fun e => e.2.remove.map (fun st => targetPath iconDir st e.1))

/-- flatRun folds the removal step over a flat path list. -/
def flatRun (ps : List String) (a : List String × Nat) : List String × Nat :=
  ps.foldl delStep a

theorem foldl_flatMap {α β γ : Type} (g : α → List β) (f : γ → β → γ)
    (l : List α) (init : γ) :
    (l.flatMap g).foldl f init = l.foldl (fun a x => (g x).foldl f a) init := by
  induction l generalizing init with
  | nil => simp
  | cons x xs ih => simp [List.flatMap_cons, List.foldl_append, ih]

theorem runHashDeleter_eq_flatRun (iconDir : String)
    (report : List (IconName × HashEntry)) (fs : List String) :
    runHashDeleter iconDir report fs = flatRun (hashTargets iconDir report) (fs, 0) := by
  unfold runHashDeleter hashTargets flatRun
  rw [foldl_flatMap]
  have h1 : (fun (acc : List String × Nat) (e : IconName × HashEntry) =>
      (normalizeEntry e.2).foldl
        (fun acc2 d =>
          d.remove.foldl (fun a st => delStep a (targetPath iconDir st e.1)) acc2)
        acc) =
    (fun acc e =>
      ((normalizeEntry e.2).flatMap (fun d =>
        d.remove.map (fun st => targetPath iconDir st e.1))).foldl delStep acc) := by
    funext acc e
    rw [foldl_flatMap]
    have h2 : (fun (acc2 : List String × Nat) (d : HashDecision) =>
        d.remove.foldl (fun a st => delStep a (targetPath iconDir st e.1)) acc2) =
      (fun acc2 d =>
        (d.remove.map (fun st => targetPath iconDir st e.1)).foldl delStep acc2) := by
      funext acc2 d
      rw [List.foldl_map]
    rw [h2]
  rw [h1]

theorem runVisualDeleter_eq_flatRun (iconDir : String)
    (report : List (IconName × VisualDecision)) (fs : List String) :
    runVisualDeleter iconDir report fs =
      flatRun (visualTargets iconDir report) (fs, 0) := by
  unfold runVisualDeleter visualTargets flatRun
  rw [foldl_flatMap]
  have h1 : (fun (acc : List String × Nat) (e : IconName × VisualDecision) =>
      e.2.remove.foldl (fun a st => delStep a (targetPath iconDir st e.1)) acc) =
    (fun acc e =>
      (e.2.remove.map (fun st => targetPath iconDir st e.1)).foldl delStep acc) := by
    funext acc e
    rw [List.foldl_map]
  rw [h1]

theorem flatRun_fst_subset (ps : List String) (a : List String × Nat) :
    ∀ q ∈ (flatRun ps a).1, q ∈ a.1 := by
  induction ps generalizing a with
  | nil => intro q hq; simpa [flatRun] using hq
  | cons p rest ih =>
    intro q hq
    have h1 : flatRun (p :: rest) a = flatRun rest (delStep a p) := rfl
    rw [h1] at hq
    have h2 := ih (delStep a p) q hq
    unfold delStep at h2
    by_cases hp : p ∈ a.1
    · rw [if_pos hp] at h2
      exact List.mem_of_mem_filter h2
    · rw [if_neg hp] at h2
      exact h2

theorem flatRun_removes (ps : List String) (a : List String × Nat) :
    ∀ p ∈ ps, p ∉ (flatRun ps a).1 := by
  induction ps generalizing a with
  | nil => intro p hp; simp at hp
  | cons q rest ih =>
    intro p hp
    have h1 : flatRun (q :: rest) a = flatRun rest (delStep a q) := rfl
    rw [h1]
    rcases List.mem_cons.mp hp with hp | hp
    · subst hp
      have hnot : p ∉ (delStep a p).1 := by
        unfold delStep
        by_cases hm : p ∈ a.1
        · rw [if_pos hm]
          intro hmem
          exact (by simpa using (List.mem_filter.mp hmem).2 : p ≠ p) rfl
        · rw [if_neg hm]
          exact hm
      intro hmem
      exact hnot (flatRun_fst_subset rest (delStep a p) p hmem)
    · exact ih (delStep a q) p hp

theorem flatRun_noop (ps : List String) (fs : List String) (n : Nat)
    (h : ∀ p ∈ ps, p ∉ fs) : flatRun ps (fs, n) = (fs, n) := by
  induction ps with
  | nil => rfl
  | cons p rest ih =>
    have h1 : flatRun (p :: rest) (fs, n) = flatRun rest (delStep (fs, n) p) := rfl
    rw [h1]
    have h2 : delStep (fs, n) p = (fs, n) := by
      unfold delStep
      rw [if_neg (h p (List.mem_cons_self p rest))]
    rw [h2]
    exact ih (fun q hq => h q (List.mem_cons_of_mem p hq))

/-- jsLower models `String.prototype.toLowerCase()` on the ASCII names this
plugin handles. -/
def jsLower (s : String) : String := String.mk (s.data.map Char.toLower)

/-- isLowerAlnum models the character class `[a-z0-9]`. -/
def isLowerAlnum (c : Char) : Bool :=
  (decide ('a' ≤ c) && decide (c ≤ 'z')) || (decide ('0' ≤ c) && decide (c ≤ '9'))

/-- normStyleChars models `.toLowerCase().replace(/[^a-z0-9]/g, "")`. -/
def normStyleChars (s : String) : String :=
  String.mk ((s.data.map Char.toLower).filter isLowerAlnum)

/-- leadsWith decides whether the second character list starts with the first. -/
def leadsWith : List Char → List Char → Bool
  | [], _ => true
  | _ :: _, [] => false
  | p :: ps, c :: cs => decide (p = c) && leadsWith ps cs

/-- styleEqChars is the literal "Style=" the marker's regex anchors on. -/
def styleEqChars : List Char := "Style=".data

/-- searchCapture models `variantName.match(/Style=(.+)/)`: locate the first
occurrence of "Style=" and capture everything after it.  An empty capture
means the regex fails (because `.+` needs at least one character), and a
first occurrence with an empty tail is necessarily the only chance to match. -/
def searchCapture : List Char → Option (List Char)
  | [] => none
  | c :: rest =>
    if leadsWith styleEqChars (c :: rest) then
      some ((c :: rest).drop styleEqChars.length)
    else searchCapture rest

/-- extractStyleFromVariantName models the marker's style extraction: the
captured text after "Style=" when the regex matches, else the whole variant
name, lowercased and stripped to `[a-z0-9]`. -/
def extractStyleFromVariantName (variantName : String) : String :=
  match searchCapture variantName.data with
  | some cap =>
    if cap = [] then normStyleChars variantName
    else normStyleChars (String.mk cap)
  | none => normStyleChars variantName

/-- shouldMark models the per-variant marking decision of the plugin message
handler: a variant whose extracted style is the reserved "twotone" label is
always marked; otherwise it is marked exactly when the loaded report lists
its icon and its style is among the report's lowercased remove list. -/
def shouldMark (report : List (String × List String))
    (iconName styleName : String) : Bool :=
  if styleName = "twotone" then true
  else
    match report.find? (fun e => e.1 = iconName) with
    | some e => (e.2.map jsLower).contains styleName
    | none => false

theorem keep_union_remove (c : List Style) (hne : c ≠ []) (s : Style) :
    (s ∈ chooseRemove c ∨ s = chooseKeep c) ↔ s ∈ c := by
  constructor
  · rintro (h | h)
    · exact ((chooseRemove_mem c s).mp h).1
    · exact h ▸ chooseKeep_mem c hne
  · intro h
    by_cases hk : s = chooseKeep c
    · exact Or.inr hk
    · exact Or.inl ((chooseRemove_mem c s).mpr ⟨h, hk⟩)

/-- C1: for every duplicate cluster of size at least two, in the exact
pipeline (a member of duplicateClusters) as well as in the visual pipeline
(a non-empty involved set), the keep selected by the shared choice code is
"outlined" whenever "outlined" is in the cluster and otherwise the
lexicographically smallest style name in the cluster, and the remove list
holds exactly the cluster's other members. -/
theorem C1_keep_choice_remove_rest :
    (∀ (hash : FsPath → String) (variants : List (Style × FsPath))
        (c : List Style), c ∈ duplicateClusters hash variants →
      (("outlined" ∈ c → chooseKeep c = "outlined") ∧
        ("outlined" ∉ c → chooseKeep c ∈ c ∧ ∀ s ∈ c, chooseKeep c ≤ s) ∧
        (∀ s, s ∈ chooseRemove c ↔ s ∈ c ∧ s ≠ chooseKeep c))) ∧
    (∀ (oracle : Style → Style → Bool) (styles : List Style),
        involvedList oracle styles ≠ [] →
      (("outlined" ∈ involvedList oracle styles →
          chooseKeep (involvedList oracle styles) = "outlined") ∧
        ("outlined" ∉ involvedList oracle styles →
          chooseKeep (involvedList oracle styles) ∈ involvedList oracle styles ∧
            ∀ s ∈ involvedList oracle styles,
              chooseKeep (involvedList oracle styles) ≤ s) ∧
        (∀ s, s ∈ chooseRemove (involvedList oracle styles) ↔
          s ∈ involvedList oracle styles ∧
            s ≠ chooseKeep (involvedList oracle styles)))) := by
  constructor
  · intro hash variants c hc
    have hne : c ≠ [] := by
      intro h
      have := cluster_length hash variants c hc
      rw [h] at this
      simp at this
    exact ⟨chooseKeep_outlined c, chooseKeep_min c hne, chooseRemove_mem c⟩
  · intro oracle styles hne
    exact ⟨chooseKeep_outlined _, chooseKeep_min _ hne, chooseRemove_mem _⟩

/-- Witness for C1 at a concrete hash run (icon with two byte-identical
styles) and a concrete visual run (everything judged equal). -/
theorem C1_witness :
    ((("outlined" ∈ (["outlined", "filled"] : List Style) →
        chooseKeep ["outlined", "filled"] = "outlined") ∧
      ("outlined" ∉ (["outlined", "filled"] : List Style) →
        chooseKeep ["outlined", "filled"] ∈ (["outlined", "filled"] : List Style) ∧
          ∀ s ∈ (["outlined", "filled"] : List Style),
            chooseKeep ["outlined", "filled"] ≤ s) ∧
      (∀ s, s ∈ chooseRemove ["outlined", "filled"] ↔
        s ∈ (["outlined", "filled"] : List Style) ∧
          s ≠ chooseKeep ["outlined", "filled"]))) ∧
    (("outlined" ∈ involvedList (fun _ _ => true) ["outlined", "filled"] →
        chooseKeep (involvedList (fun _ _ => true) ["outlined", "filled"]) =
          "outlined") ∧
      ("outlined" ∉ involvedList (fun _ _ => true) ["outlined", "filled"] →
        chooseKeep (involvedList (fun _ _ => true) ["outlined", "filled"]) ∈
            involvedList (fun _ _ => true) ["outlined", "filled"] ∧
          ∀ s ∈ involvedList (fun _ _ => true) ["outlined", "filled"],
            chooseKeep (involvedList (fun _ _ => true) ["outlined", "filled"]) ≤ s) ∧
      (∀ s, s ∈ chooseRemove (involvedList (fun _ _ => true) ["outlined", "filled"]) ↔
        s ∈ involvedList (fun _ _ => true) ["outlined", "filled"] ∧
          s ≠ chooseKeep (involvedList (fun _ _ => true) ["outlined", "filled"]))) :=
  ⟨C1_keep_choice_remove_rest.1
      (fun p => if p = "p1" then "h" else if p = "p2" then "h" else "x")
      [("outlined", "p1"), ("filled", "p2")] ["outlined", "filled"] (by decide),
    C1_keep_choice_remove_rest.2 (fun _ _ => true) ["outlined", "filled"]
      (by decide)⟩

/-- C2: with outlined/filled judged equal, filled/round judged equal, and
outlined/round judged not equal, the involved set is exactly
outlined, filled, round, and the visual pipeline's decision keeps "outlined"
and removes "filled" and "round", although outlined and round were never
directly judged equal. -/
theorem C2_nontransitive_cluster (oracle : Style → Style → Bool)
    (p1 p2 p3 : FsPath) (name : IconName)
    (h1 : oracle "outlined" "filled" = true)
    (h2 : oracle "filled" "round" = true)
    (h3 : oracle "outlined" "round" = false) :
    involvedList oracle ["outlined", "filled", "round"] =
      ["outlined", "filled", "round"] ∧
    processVisualDeduplication (fun _ => oracle)
      [(name, [("outlined", p1), ("filled", p2), ("round", p3)])] =
      [(name, ⟨"outlined", ["filled", "round"]⟩)] := by
  have hpairs : orderedPairs ["outlined", "filled", "round"] =
      [("outlined", "filled"), ("outlined", "round"), ("filled", "round")] := by
    rfl
  have hinv : involvedList oracle ["outlined", "filled", "round"] =
      ["outlined", "filled", "round"] := by
    unfold involvedList
    rw [hpairs]
    simp only [List.foldl_cons, List.foldl_nil]
    unfold involvedStep
    rw [h1, h2, h3]
    simp [addOnce]
  refine ⟨hinv, ?_⟩
  unfold processVisualDeduplication
  rw [List.filterMap_cons]
  have hmap : ([("outlined", p1), ("filled", p2), ("round", p3)] :
      List (Style × FsPath)).map (fun v => v.1) =
      ["outlined", "filled", "round"] := rfl
  have hkeep : chooseKeep ["outlined", "filled", "round"] = "outlined" :=
    chooseKeep_outlined _ (by decide)
  have hrem : chooseRemove ["outlined", "filled", "round"] =
      ["filled", "round"] := by
    unfold chooseRemove
    rw [if_pos (by decide : "outlined" ∈ (["outlined", "filled", "round"] :
      List Style)), hkeep]
    simp
  simp only [hmap, hinv, hkeep, hrem]
  simp

/-- Witness for C2 with a concrete oracle realizing exactly the three
judgments. -/
theorem C2_witness :
    involvedList
        (fun a b => (a == "outlined" && b == "filled") ||
          (a == "filled" && b == "round"))
        ["outlined", "filled", "round"] = ["outlined", "filled", "round"] ∧
    processVisualDeduplication
        (fun _ a b => (a == "outlined" && b == "filled") ||
          (a == "filled" && b == "round"))
        [("a", [("outlined", "q1"), ("filled", "q2"), ("round", "q3")])] =
      [("a", ⟨"outlined", ["filled", "round"]⟩)] :=
  C2_nontransitive_cluster
    (fun a b => (a == "outlined" && b == "filled") ||
      (a == "filled" && b == "round"))
    "q1" "q2" "q3" "a" (by decide) (by decide) (by decide)

/-- exHashC3 is a concrete content-hash assignment: outlined and sharp share
one digest, filled and round share another. -/
def exHashC3 : FsPath → String := fun p =>
  if p = "p1" then "h1" else if p = "p2" then "h2"
  else if p = "p3" then "h1" else "h2"

/-- exVariantsC3 is the icon's style-to-path map for the C3 scenario. -/
def exVariantsC3 : List (Style × FsPath) :=
  [("outlined", "p1"), ("filled", "p2"), ("sharp", "p3"), ("round", "p4")]

theorem jsSort_filled_round : jsSort ["filled", "round"] = ["filled", "round"] := by
  have h : ("filled" : String) ≤ "round" := by
    rw [String.le_iff_toList_le]
    decide
  simp [jsSort, sortedInsert, h]

theorem chooseKeep_fr : chooseKeep ["filled", "round"] = "filled" := by
  unfold chooseKeep
  rw [if_neg (by decide), jsSort_filled_round]
  rfl

theorem chooseRemove_fr : chooseRemove ["filled", "round"] = ["round"] := by
  unfold chooseRemove
  rw [if_neg (by decide), jsSort_filled_round, chooseKeep_fr]
  simp

theorem chooseKeep_os : chooseKeep ["outlined", "sharp"] = "outlined" :=
  chooseKeep_outlined _ (by decide)

theorem chooseRemove_os : chooseRemove ["outlined", "sharp"] = ["sharp"] := by
  unfold chooseRemove
  rw [if_pos (by decide : "outlined" ∈ (["outlined", "sharp"] : List Style)),
    chooseKeep_os]
  simp

theorem duplicateClusters_exC3 : duplicateClusters exHashC3 exVariantsC3 =
    [["outlined", "sharp"], ["filled", "round"]] := by decide

theorem processIconGroups_exC3 : processIconGroups exHashC3 [("c", exVariantsC3)] =
    [("c", ⟨["outlined", "filled"], ["sharp", "round"]⟩)] := by
  unfold processIconGroups
  rw [List.filterMap_cons]
  have hred : (if duplicateClusters exHashC3 exVariantsC3 = [] then none
      else some ("c", iconDecision (duplicateClusters exHashC3 exVariantsC3))) =
        some ("c", iconDecision (duplicateClusters exHashC3 exVariantsC3)) := by
    rw [duplicateClusters_exC3]
    simp
  rw [hred, duplicateClusters_exC3, iconDecision_eq]
  simp [chooseKeep_os, chooseKeep_fr, chooseRemove_os, chooseRemove_fr]

/-- C3 counterexample: an icon whose four styles split into two duplicate
clusters is written to the hash report as one single object
`{ keep: ["outlined", "filled"], remove: ["sharp", "round"] }`, not as an
array of per-cluster decision records. -/
theorem C3_counterexample :
    (duplicateClusters exHashC3 exVariantsC3).length = 2 ∧
    processIconGroups exHashC3 [("c", exVariantsC3)] =
      [("c", ⟨["outlined", "filled"], ["sharp", "round"]⟩)] ∧
    hashReportJson (processIconGroups exHashC3 [("c", exVariantsC3)]) =
      Json.obj [("c", Json.obj
        [("keep", Json.arr [Json.str "outlined", Json.str "filled"]),
          ("remove", Json.arr [Json.str "sharp", Json.str "round"])])] ∧
    (Json.obj [("keep", Json.arr [Json.str "outlined", Json.str "filled"]),
      ("remove", Json.arr [Json.str "sharp", Json.str "round"])]).isArr = false := by
  refine ⟨by rw [duplicateClusters_exC3]; rfl, processIconGroups_exC3, ?_, rfl⟩
  rw [processIconGroups_exC3]
  rfl

/-- C3 amended: every exact-pipeline report entry is the single object
`{ keep, remove }` whose keep array holds one style per cluster (in cluster
order) and whose remove array is the concatenation of the clusters' removed
styles; the hash-report deleter nevertheless accepts both the single-object
shape and an array-of-objects shape, normalizing a single object to a
one-element array. -/
theorem C3_amended_single_object_per_icon :
    (∀ (hash : FsPath → String)
        (groups : List (IconName × List (Style × FsPath)))
        (e : IconName × HashDecision), e ∈ processIconGroups hash groups →
      ∃ g, g ∈ groups ∧ g.1 = e.1 ∧
        duplicateClusters hash g.2 ≠ [] ∧
        e.2.keep = (duplicateClusters hash g.2).map chooseKeep ∧
        e.2.remove = (duplicateClusters hash g.2).flatMap chooseRemove ∧
        entryJson e.2 = Json.obj
          [("keep", Json.arr (e.2.keep.map Json.str)),
            ("remove", Json.arr (e.2.remove.map Json.str))] ∧
        (entryJson e.2).isArr = false) ∧
    (∀ d : HashDecision, normalizeEntry (HashEntry.single d) = [d] ∧
      normalizeEntry (HashEntry.multi [d]) = [d]) := by
  constructor
  · intro hash groups e he
    unfold processIconGroups at he
    rw [List.mem_filterMap] at he
    obtain ⟨g, hg, hge⟩ := he
    by_cases hdc : duplicateClusters hash g.2 = []
    · rw [if_pos hdc] at hge
      exact absurd hge (by simp)
    · rw [if_neg hdc] at hge
      have he2 : e = (g.1, iconDecision (duplicateClusters hash g.2)) := by
        exact (Option.some_inj.mp hge).symm
      refine ⟨g, hg, by rw [he2], hdc, ?_, ?_, rfl, rfl⟩
      · rw [he2, iconDecision_eq]
      · rw [he2, iconDecision_eq]
  · intro d
    exact ⟨rfl, rfl⟩

/-- Witness for the amended C3 at the two-cluster input of the
counterexample. -/
theorem C3_amended_witness :
    (∃ g, g ∈ [("c", exVariantsC3)] ∧
      g.1 = ("c", (⟨["outlined", "filled"], ["sharp", "round"]⟩ : HashDecision)).1 ∧
      duplicateClusters exHashC3 g.2 ≠ [] ∧
      (⟨["outlined", "filled"], ["sharp", "round"]⟩ : HashDecision).keep =
        (duplicateClusters exHashC3 g.2).map chooseKeep ∧
      (⟨["outlined", "filled"], ["sharp", "round"]⟩ : HashDecision).remove =
        (duplicateClusters exHashC3 g.2).flatMap chooseRemove ∧
      entryJson ⟨["outlined", "filled"], ["sharp", "round"]⟩ = Json.obj
        [("keep", Json.arr ((["outlined", "filled"] : List Style).map Json.str)),
          ("remove", Json.arr ((["sharp", "round"] : List Style).map Json.str))] ∧
      (entryJson ⟨["outlined", "filled"], ["sharp", "round"]⟩).isArr = false) ∧
    (normalizeEntry (HashEntry.single ⟨["outlined"], ["filled"]⟩) =
      [⟨["outlined"], ["filled"]⟩] ∧
      normalizeEntry (HashEntry.multi [⟨["outlined"], ["filled"]⟩]) =
        [⟨["outlined"], ["filled"]⟩]) := by
  constructor
  · refine C3_amended_single_object_per_icon.1 exHashC3 [("c", exVariantsC3)]
      ("c", ⟨["outlined", "filled"], ["sharp", "round"]⟩) ?_
    rw [processIconGroups_exC3]
    exact List.mem_cons_self _ _
  · exact C3_amended_single_object_per_icon.2 ⟨["outlined"], ["filled"]⟩

/-- C4: for every emitted decision, the kept style is never in its own remove
list, and the remove list together with the kept style is exactly the cluster
(exact pipeline) respectively the involved set (visual pipeline). -/
theorem C4_keep_remove_partition :
    (∀ (hash : FsPath → String) (variants : List (Style × FsPath))
        (c : List Style), c ∈ duplicateClusters hash variants →
      chooseKeep c ∉ chooseRemove c ∧
        ∀ s, (s ∈ chooseRemove c ∨ s = chooseKeep c) ↔ s ∈ c) ∧
    (∀ (oracle : IconName → Style → Style → Bool)
        (groups : List (IconName × List (Style × FsPath)))
        (n : IconName) (d : VisualDecision),
        (n, d) ∈ processVisualDeduplication oracle groups →
      d.keep ∉ d.remove ∧
        ∃ g, g ∈ groups ∧ g.1 = n ∧
          ∀ s, (s ∈ d.remove ∨ s = d.keep) ↔
            s ∈ involvedList (oracle n) (g.2.map (fun v => v.1))) := by
  constructor
  · intro hash variants c hc
    have hne : c ≠ [] := by
      intro h
      have := cluster_length hash variants c hc
      rw [h] at this
      simp at this
    exact ⟨chooseKeep_not_mem_chooseRemove c, keep_union_remove c hne⟩
  · intro oracle groups n d hd
    unfold processVisualDeduplication at hd
    rw [List.mem_filterMap] at hd
    obtain ⟨g, hg, hge⟩ := hd
    by_cases h1 : g.2.length < 2
    · rw [if_pos h1] at hge
      exact absurd hge (by simp)
    · rw [if_neg h1] at hge
      by_cases h2 : involvedList (oracle g.1) (g.2.map (fun v => v.1)) = []
      · rw [if_pos h2] at hge
        exact absurd hge (by simp)
      · rw [if_neg h2] at hge
        have he := Option.some_inj.mp hge
        have hn : g.1 = n := congrArg Prod.fst he
        have hdv : d = ⟨chooseKeep (involvedList (oracle g.1)
            (g.2.map (fun v => v.1))),
          chooseRemove (involvedList (oracle g.1) (g.2.map (fun v => v.1)))⟩ :=
          (congrArg Prod.snd he).symm
        subst hn
        refine ⟨?_, g, hg, rfl, ?_⟩
        · rw [hdv]
          exact chooseKeep_not_mem_chooseRemove _
        · intro s
          rw [hdv]
          exact keep_union_remove _ h2 s

/-- Witness for C4 at a concrete hash cluster and a concrete visual run. -/
theorem C4_witness :
    (chooseKeep ["outlined", "filled"] ∉ chooseRemove ["outlined", "filled"] ∧
      ∀ s, (s ∈ chooseRemove ["outlined", "filled"] ∨
        s = chooseKeep ["outlined", "filled"]) ↔
          s ∈ (["outlined", "filled"] : List Style)) ∧
    ((⟨"outlined", ["filled"]⟩ : VisualDecision).keep ∉
        (⟨"outlined", ["filled"]⟩ : VisualDecision).remove ∧
      ∃ g, g ∈ [("a", [(("outlined" : Style), ("q1" : FsPath)),
          ("filled", "q2")])] ∧ g.1 = "a" ∧
        ∀ s, (s ∈ (⟨"outlined", ["filled"]⟩ : VisualDecision).remove ∨
          s = (⟨"outlined", ["filled"]⟩ : VisualDecision).keep) ↔
            s ∈ involvedList ((fun _ _ _ => true) "a")
              (g.2.map (fun v => v.1))) := by
  constructor
  · exact C4_keep_remove_partition.1
      (fun p => if p = "p1" then "h" else if p = "p2" then "h" else "x")
      [("outlined", "p1"), ("filled", "p2")] ["outlined", "filled"] (by decide)
  · refine C4_keep_remove_partition.2 (fun _ _ _ => true)
      [("a", [("outlined", "q1"), ("filled", "q2")])] "a"
      ⟨"outlined", ["filled"]⟩ ?_
    have hinv : involvedList (fun _ _ => true)
        (([(("outlined" : Style), ("q1" : FsPath)),
          ("filled", "q2")]).map (fun v => v.1)) = ["outlined", "filled"] := by
      decide
    unfold processVisualDeduplication
    rw [List.filterMap_cons]
    have hkeep : chooseKeep ["outlined", "filled"] = "outlined" :=
      chooseKeep_outlined _ (by decide)
    have hrem : chooseRemove ["outlined", "filled"] = ["filled"] := by
      unfold chooseRemove
      rw [if_pos (by decide : "outlined" ∈ (["outlined", "filled"] :
        List Style)), hkeep]
      simp
    simp only [hinv, hkeep, hrem]
    simp

/-- C5: in both pipelines the printed total-removals statistic equals the sum
of the lengths of all remove lists in the emitted report, and the per-style
tallies sum to that same total (for the visual pipeline's report equality the
icon groups must draw their styles from STYLES, as the grouper guarantees,
because its counters skip styles that are not removalByStyle keys). -/
theorem C5_totals_match_report :
    (∀ (hash : FsPath → String)
        (groups : List (IconName × List (Style × FsPath))),
      hashTotalRemoved hash groups =
        ((processIconGroups hash groups).map (fun e => e.2.remove.length)).sum ∧
      ((∀ g ∈ groups, ∀ v ∈ g.2, v.1 ∈ STYLES) →
        (STYLES.map (fun s => hashRemovedPerStyle hash groups s)).sum =
          hashTotalRemoved hash groups)) ∧
    (∀ (oracle : IconName → Style → Style → Bool)
        (groups : List (IconName × List (Style × FsPath))),
      ((∀ g ∈ groups, ∀ v ∈ g.2, v.1 ∈ STYLES) →
        visualTotalToRemove oracle groups =
          ((processVisualDeduplication oracle groups).map
            (fun e => e.2.remove.length)).sum) ∧
      (STYLES.map (fun s => visualRemovedPerStyle oracle groups s)).sum =
        visualTotalToRemove oracle groups) := by
  constructor
  · intro hash groups
    constructor
    · rw [hashTotalRemoved_eq, processIconGroups_remove_sum]
    · intro hsub
      have hstep : ∀ g ∈ groups,
          (STYLES.map (fun s => ((duplicateClusters hash g.2).map
            (fun c => (chooseRemove c).count s)).sum)).sum =
          ((duplicateClusters hash g.2).map
            (fun c => (chooseRemove c).length)).sum := by
        intro g hg
        have hcomm := sum_map_comm STYLES (duplicateClusters hash g.2)
          (fun s c => (chooseRemove c).count s)
        refine hcomm.trans ?_
        apply congrArg List.sum
        apply List.map_congr_left
        intro c hc
        apply sum_count_eq_length STYLES (by decide)
        intro x hx
        have hxc : x ∈ c := ((chooseRemove_mem c x).mp hx).1
        have hxs := cluster_subset_styles hash g.2 c hc x hxc
        rw [List.mem_map] at hxs
        obtain ⟨v, hv, hvx⟩ := hxs
        exact hvx ▸ hsub g hg v hv
      calc (STYLES.map (fun s => hashRemovedPerStyle hash groups s)).sum
          = (STYLES.map (fun s => (groups.map (fun g =>
              ((duplicateClusters hash g.2).map
                (fun c => (chooseRemove c).count s)).sum)).sum)).sum := by
            apply congrArg List.sum
            exact List.map_congr_left
              (fun s _ => hashRemovedPerStyle_eq hash groups s)
        _ = (groups.map (fun g => (STYLES.map (fun s =>
              ((duplicateClusters hash g.2).map
                (fun c => (chooseRemove c).count s)).sum)).sum)).sum :=
            sum_map_comm STYLES groups (fun s g =>
              ((duplicateClusters hash g.2).map
                (fun c => (chooseRemove c).count s)).sum)
        _ = (groups.map (fun g => ((duplicateClusters hash g.2).map
              (fun c => (chooseRemove c).length)).sum)).sum := by
            apply congrArg List.sum
            exact List.map_congr_left hstep
        _ = hashTotalRemoved hash groups := (hashTotalRemoved_eq hash groups).symm
  · intro oracle groups
    constructor
    · intro hsub
      rw [visualTotalToRemove_eq, processVisual_remove_sum]
      apply congrArg List.sum
      apply List.map_congr_left
      intro g hg
      rw [visualGroupRemoveFiltered_eq_of_wf oracle g (fun v hv => hsub g hg v hv)]
    · have hstep : ∀ g ∈ groups,
          (STYLES.map (fun s => (visualGroupRemoveFiltered oracle g).count s)).sum =
            (visualGroupRemoveFiltered oracle g).length := by
        intro g _
        apply sum_count_eq_length STYLES (by decide)
        intro x hx
        unfold visualGroupRemoveFiltered at hx
        have := (List.mem_filter.mp hx).2
        simpa using this
      calc (STYLES.map (fun s => visualRemovedPerStyle oracle groups s)).sum
          = (STYLES.map (fun s => (groups.map (fun g =>
              (visualGroupRemoveFiltered oracle g).count s)).sum)).sum := by
            apply congrArg List.sum
            exact List.map_congr_left
              (fun s _ => visualRemovedPerStyle_eq oracle groups s)
        _ = (groups.map (fun g => (STYLES.map (fun s =>
              (visualGroupRemoveFiltered oracle g).count s)).sum)).sum :=
            sum_map_comm STYLES groups (fun s g =>
              (visualGroupRemoveFiltered oracle g).count s)
        _ = (groups.map (fun g =>
              (visualGroupRemoveFiltered oracle g).length)).sum := by
            apply congrArg List.sum
            exact List.map_congr_left hstep
        _ = visualTotalToRemove oracle groups :=
            (visualTotalToRemove_eq oracle groups).symm

/-- Witness for C5 on the two-cluster hash run and an all-equal visual run. -/
theorem C5_witness :
    (hashTotalRemoved exHashC3 [("c", exVariantsC3)] =
        ((processIconGroups exHashC3 [("c", exVariantsC3)]).map
          (fun e => e.2.remove.length)).sum ∧
      (STYLES.map (fun s =>
          hashRemovedPerStyle exHashC3 [("c", exVariantsC3)] s)).sum =
        hashTotalRemoved exHashC3 [("c", exVariantsC3)]) ∧
    (visualTotalToRemove (fun _ _ _ => true) [("c", exVariantsC3)] =
        ((processVisualDeduplication (fun _ _ _ => true)
          [("c", exVariantsC3)]).map (fun e => e.2.remove.length)).sum ∧
      (STYLES.map (fun s =>
          visualRemovedPerStyle (fun _ _ _ => true) [("c", exVariantsC3)] s)).sum =
        visualTotalToRemove (fun _ _ _ => true) [("c", exVariantsC3)]) :=
  ⟨⟨(C5_totals_match_report.1 exHashC3 [("c", exVariantsC3)]).1,
      (C5_totals_match_report.1 exHashC3 [("c", exVariantsC3)]).2 (by decide)⟩,
    ⟨(C5_totals_match_report.2 (fun _ _ _ => true) [("c", exVariantsC3)]).1
        (by decide),
      (C5_totals_match_report.2 (fun _ _ _ => true) [("c", exVariantsC3)]).2⟩⟩

/-- listingsPerm relates two filesystem states that hold the same files per
style directory, possibly listed in different orders (and agree on which
style directories exist). -/
def listingsPerm (l1 l2 : Style → Option (List String)) : Prop :=
  ∀ s, (l1 s = none ∧ l2 s = none) ∨
    ∃ fs1 fs2, l1 s = some fs1 ∧ l2 s = some fs2 ∧ fs1.Perm fs2

/-- C6: for a fixed filesystem state, the grouper's result has the same
content — the same path value (or absence) at every icon name and style key —
for every possible directory-listing order. -/
theorem C6_grouper_listing_order_independent (root : String)
    (l1 l2 : Style → Option (List String)) (hperm : listingsPerm l1 l2) :
    ∀ (ic : IconName) (st : Style),
      lookupGroup (groupIconsByName root l1) ic st =
        lookupGroup (groupIconsByName root l2) ic st := by
  intro ic st
  rw [lookupGroup_groupIconsByName, lookupGroup_groupIconsByName]
  unfold groupSpec
  by_cases hst : st ∈ STYLES
  · rw [if_pos hst, if_pos hst]
    rcases hperm st with ⟨h1, h2⟩ | ⟨fs1, fs2, h1, h2, hp⟩
    · rw [h1, h2]
    · rw [h1, h2]
      dsimp only
      by_cases hm : (ic ++ ".svg") ∈ fs1
      · rw [if_pos hm, if_pos (hp.mem_iff.mp hm)]
      · rw [if_neg hm, if_neg (fun hh => hm (hp.mem_iff.mpr hh))]
  · rw [if_neg hst, if_neg hst]

/-- Witness for C6: two listings of the same outlined directory in opposite
orders give the same lookup at icon "a". -/
theorem C6_witness :
    lookupGroup (groupIconsByName "root"
      (fun s => if s = "outlined" then some ["a.svg", "b.svg"] else none))
      "a" "outlined" =
    lookupGroup (groupIconsByName "root"
      (fun s => if s = "outlined" then some ["b.svg", "a.svg"] else none))
      "a" "outlined" :=
  C6_grouper_listing_order_independent "root"
    (fun s => if s = "outlined" then some ["a.svg", "b.svg"] else none)
    (fun s => if s = "outlined" then some ["b.svg", "a.svg"] else none)
    (by
      intro s
      by_cases h : s = "outlined"
      · refine Or.inr ⟨["a.svg", "b.svg"], ["b.svg", "a.svg"], ?_, ?_, ?_⟩
        · simp [h]
        · simp [h]
        · decide
      · exact Or.inl ⟨if_neg h, if_neg h⟩)
    "a" "outlined"

/-- C7: the marking consumer flags every variant whose extracted style is the
reserved "twotone" label, for every loaded report, whether or not the icon or
style occurs in it. -/
theorem C7_twotone_always_marked (report : List (String × List String))
    (iconName variantName : String)
    (h : extractStyleFromVariantName variantName = "twotone") :
    shouldMark report iconName (extractStyleFromVariantName variantName) = true := by
  rw [h]
  unfold shouldMark
  rw [if_pos rfl]

/-- Witness for C7: a "Style=Two Tone" variant is marked under a report that
mentions neither the icon nor the style. -/
theorem C7_witness :
    shouldMark [("icon1", ["filled"])] "icon2"
      (extractStyleFromVariantName "Style=Two Tone") = true :=
  C7_twotone_always_marked [("icon1", ["filled"])] "icon2" "Style=Two Tone"
    (by decide)

/-- C8: when the report file does not exist, both report-consuming deleters
report the missing file and return with the filesystem unchanged and a zero
deletion count. -/
theorem C8_missing_report_no_deletion :
    (∀ (iconDir reportPath : String) (fs : List String)
        (content : List (IconName × HashEntry)), reportPath ∉ fs →
      deleteFilesByHashReport iconDir reportPath fs content = ((fs, 0), true)) ∧
    (∀ (iconDir reportPath : String) (fs : List String)
        (content : List (IconName × VisualDecision)), reportPath ∉ fs →
      deleteFilesByVisualReport iconDir reportPath fs content = ((fs, 0), true)) := by
  constructor
  · intro iconDir rp fs content h
    unfold deleteFilesByHashReport
    rw [if_neg h]
  · intro iconDir rp fs content h
    unfold deleteFilesByVisualReport
    rw [if_neg h]

/-- Witness for C8 at a concrete missing report path. -/
theorem C8_witness :
    deleteFilesByHashReport "src/svg" "dedup-report.json"
        ["src/svg/outlined/a.svg"]
        [("a", HashEntry.single ⟨["outlined"], ["filled"]⟩)] =
      ((["src/svg/outlined/a.svg"], 0), true) ∧
    deleteFilesByVisualReport "src/svg" "visual-dedup-report.json"
        ["src/svg/outlined/a.svg"] [("a", ⟨"outlined", ["filled"]⟩)] =
      ((["src/svg/outlined/a.svg"], 0), true) :=
  ⟨C8_missing_report_no_deletion.1 "src/svg" "dedup-report.json"
      ["src/svg/outlined/a.svg"]
      [("a", HashEntry.single ⟨["outlined"], ["filled"]⟩)] (by decide),
    C8_missing_report_no_deletion.2 "src/svg" "visual-dedup-report.json"
      ["src/svg/outlined/a.svg"] [("a", ⟨"outlined", ["filled"]⟩)] (by decide)⟩

/-- C9: a removal whose target file is already absent is silently skipped
without touching the filesystem or the deleted-file count, and consequently
re-running either deleter on its own output deletes nothing further. -/
theorem C9_absent_target_skipped :
    (∀ (fs : List String) (n : Nat) (p : String), p ∉ fs →
      delStep (fs, n) p = (fs, n)) ∧
    (∀ (iconDir : String) (report : List (IconName × HashEntry))
        (fs : List String),
      runHashDeleter iconDir report ((runHashDeleter iconDir report fs).1) =
        ((runHashDeleter iconDir report fs).1, 0)) ∧
    (∀ (iconDir : String) (report : List (IconName × VisualDecision))
        (fs : List String),
      runVisualDeleter iconDir report ((runVisualDeleter iconDir report fs).1) =
        ((runVisualDeleter iconDir report fs).1, 0)) := by
  refine ⟨?_, ?_, ?_⟩
  · intro fs n p h
    unfold delStep
    rw [if_neg h]
  · intro iconDir report fs
    rw [runHashDeleter_eq_flatRun, runHashDeleter_eq_flatRun]
    exact flatRun_noop _ _ 0 (fun p hp => flatRun_removes _ _ p hp)
  · intro iconDir report fs
    rw [runVisualDeleter_eq_flatRun, runVisualDeleter_eq_flatRun]
    exact flatRun_noop _ _ 0 (fun p hp => flatRun_removes _ _ p hp)

/-- Witness for C9: skipping a concrete absent path and re-running concrete
deleters on their own output. -/
theorem C9_witness :
    delStep (["src/svg/outlined/a.svg"], 0) "src/svg/filled/a.svg" =
      (["src/svg/outlined/a.svg"], 0) ∧
    runHashDeleter "src/svg" [("a", HashEntry.single ⟨["outlined"], ["filled"]⟩)]
        ((runHashDeleter "src/svg"
          [("a", HashEntry.single ⟨["outlined"], ["filled"]⟩)]
          ["src/svg/filled/a.svg"]).1) =
      ((runHashDeleter "src/svg"
        [("a", HashEntry.single ⟨["outlined"], ["filled"]⟩)]
        ["src/svg/filled/a.svg"]).1, 0) ∧
    runVisualDeleter "src/svg" [("a", ⟨"outlined", ["filled"]⟩)]
        ((runVisualDeleter "src/svg" [("a", ⟨"outlined", ["filled"]⟩)]
          ["src/svg/filled/a.svg"]).1) =
      ((runVisualDeleter "src/svg" [("a", ⟨"outlined", ["filled"]⟩)]
        ["src/svg/filled/a.svg"]).1, 0) :=
  ⟨C9_absent_target_skipped.1 ["src/svg/outlined/a.svg"] 0 "src/svg/filled/a.svg"
      (by decide),
    C9_absent_target_skipped.2.1 "src/svg"
      [("a", HashEntry.single ⟨["outlined"], ["filled"]⟩)] ["src/svg/filled/a.svg"],
    C9_absent_target_skipped.2.2 "src/svg" [("a", ⟨"outlined", ["filled"]⟩)]
      ["src/svg/filled/a.svg"]⟩

/-- C10: every emitted report entry has a non-empty keep selection and a
non-empty remove list, in both pipelines (the visual entry's single keep is a
genuine style of its icon; group style keys are distinct, as the grouper
guarantees). -/
theorem C10_no_empty_entries :
    (∀ (hash : FsPath → String)
        (groups : List (IconName × List (Style × FsPath))),
      (∀ g ∈ groups, (g.2.map (fun v => v.1)).Nodup) →
      ∀ e ∈ processIconGroups hash groups, e.2.keep ≠ [] ∧ e.2.remove ≠ []) ∧
    (∀ (oracle : IconName → Style → Style → Bool)
        (groups : List (IconName × List (Style × FsPath))),
      (∀ g ∈ groups, (g.2.map (fun v => v.1)).Nodup) →
      ∀ e ∈ processVisualDeduplication oracle groups,
        e.2.remove ≠ [] ∧ ∃ g, g ∈ groups ∧ g.1 = e.1 ∧
          e.2.keep ∈ g.2.map (fun v => v.1)) := by
  constructor
  · intro hash groups hnd e he
    unfold processIconGroups at he
    rw [List.mem_filterMap] at he
    obtain ⟨g, hg, hge⟩ := he
    by_cases hdc : duplicateClusters hash g.2 = []
    · rw [if_pos hdc] at hge
      exact absurd hge (by simp)
    · rw [if_neg hdc] at hge
      have he2 : e = (g.1, iconDecision (duplicateClusters hash g.2)) :=
        (Option.some_inj.mp hge).symm
      obtain ⟨c0, dcrest, hdceq⟩ := List.exists_cons_of_ne_nil hdc
      have hc0 : c0 ∈ duplicateClusters hash g.2 := by
        rw [hdceq]
        exact List.mem_cons_self _ _
      constructor
      · rw [he2, iconDecision_eq]
        simp [hdceq]
      · rw [he2, iconDecision_eq]
        have hnd0 : c0.Nodup := cluster_nodup hash g.2 c0 (hnd g hg) hc0
        have hlen := cluster_length hash g.2 c0 hc0
        have hrne := chooseRemove_ne_nil c0 hnd0 hlen
        obtain ⟨x, t, hxt⟩ := List.exists_cons_of_ne_nil hrne
        have hx : x ∈ chooseRemove c0 := by
          rw [hxt]
          exact List.mem_cons_self _ _
        exact List.ne_nil_of_mem
          (List.mem_flatMap.mpr ⟨c0, hc0, hx⟩)
  · intro oracle groups hnd e he
    unfold processVisualDeduplication at he
    rw [List.mem_filterMap] at he
    obtain ⟨g, hg, hge⟩ := he
    by_cases h1 : g.2.length < 2
    · rw [if_pos h1] at hge
      exact absurd hge (by simp)
    · rw [if_neg h1] at hge
      by_cases h2 : involvedList (oracle g.1) (g.2.map (fun v => v.1)) = []
      · rw [if_pos h2] at hge
        exact absurd hge (by simp)
      · rw [if_neg h2] at hge
        have he2 : e = (g.1,
            ⟨chooseKeep (involvedList (oracle g.1) (g.2.map (fun v => v.1))),
              chooseRemove (involvedList (oracle g.1) (g.2.map (fun v => v.1)))⟩) :=
          (Option.some_inj.mp hge).symm
        have hndst : (g.2.map (fun v => v.1)).Nodup := hnd g hg
        have h2len : 2 ≤ (involvedList (oracle g.1)
            (g.2.map (fun v => v.1))).length :=
          (involvedList_nil_or_two (oracle g.1) (g.2.map (fun v => v.1))
            hndst).resolve_left h2
        have hclnd := involvedList_nodup (oracle g.1) (g.2.map (fun v => v.1))
        constructor
        · rw [he2]
          exact chooseRemove_ne_nil _ hclnd h2len
        · refine ⟨g, hg, by rw [he2], ?_⟩
          rw [he2]
          exact involvedList_subset (oracle g.1) (g.2.map (fun v => v.1)) _
            (chooseKeep_mem _ h2)

/-- Witness for C10 at the two-cluster hash run and an all-equal visual run. -/
theorem C10_witness :
    (∀ e ∈ processIconGroups exHashC3 [("c", exVariantsC3)],
      e.2.keep ≠ [] ∧ e.2.remove ≠ []) ∧
    (∀ e ∈ processVisualDeduplication (fun _ _ _ => true) [("c", exVariantsC3)],
      e.2.remove ≠ [] ∧ ∃ g, g ∈ [("c", exVariantsC3)] ∧ g.1 = e.1 ∧
        e.2.keep ∈ g.2.map (fun v => v.1)) :=
  ⟨C10_no_empty_entries.1 exHashC3 [("c", exVariantsC3)] (by decide),
    C10_no_empty_entries.2 (fun _ _ _ => true) [("c", exVariantsC3)] (by decide)⟩
